import Mathlib

/-!
Verification development for the surreal-gis geometry/index/clustering core.

The Rust source operates on `f64`. The Lean embedding models floating-point
values exactly: finite values are carried as rationals (every finite `f64` is
a rational number), and the special values NaN / +inf / -inf — which the
clustering entry points can receive as parameters — are modelled by the `EF`
type below with IEEE-754 comparison and multiplication semantics. Rounding of
`f64` arithmetic is not modelled: all rational arithmetic is exact. Where the
range of finite doubles matters (the sentinel-initialised min/max folds of
`BoundingBox::from_coordinates`), theorems carry explicit boundedness
hypotheses (`|x| ≤ fMAX`) expressing that a value is a finite double.
-/

set_option exponentiation.threshold 2000

/-- Model of an `f64` value: a finite rational, or one of the IEEE special
values NaN, +infinity, -infinity (`src/surrealgis-core` and the clustering
entry points receive raw `f64` parameters that can be non-finite). -/
inductive EF where
  | fin (q : ℚ)
  | pinf
  | ninf
  | nan
deriving DecidableEq

/-- IEEE `<` on modelled doubles: any comparison involving NaN is false. -/
def EF.lt : EF → EF → Bool
  | .fin a, .fin b => decide (a < b)
  | .fin _, .pinf => true
  | .fin _, .ninf => false
  | .ninf, .fin _ => true
  | .ninf, .pinf => true
  | .pinf, .fin _ => false
  | .pinf, .pinf => false
  | .pinf, .ninf => false
  | .ninf, .ninf => false
  | .nan, _ => false
  | _, .nan => false

/-- IEEE `≤` on modelled doubles: any comparison involving NaN is false. -/
def EF.le : EF → EF → Bool
  | .nan, _ => false
  | _, .nan => false
  | .fin a, .fin b => decide (a ≤ b)
  | .fin _, .pinf => true
  | .fin _, .ninf => false
  | .ninf, _ => true
  | .pinf, .pinf => true
  | .pinf, .fin _ => false
  | .pinf, .ninf => false

/-- IEEE multiplication on modelled doubles (exact in the finite case:
rounding and overflow of the finite product are not modelled). -/
def EF.mul : EF → EF → EF
  | .nan, _ => .nan
  | _, .nan => .nan
  | .fin a, .fin b => .fin (a * b)
  | .fin a, .pinf => if 0 < a then .pinf else if a < 0 then .ninf else .nan
  | .fin a, .ninf => if 0 < a then .ninf else if a < 0 then .pinf else .nan
  | .pinf, .fin b => if 0 < b then .pinf else if b < 0 then .ninf else .nan
  | .ninf, .fin b => if 0 < b then .ninf else if b < 0 then .pinf else .nan
  | .pinf, .pinf => .pinf
  | .pinf, .ninf => .ninf
  | .ninf, .pinf => .ninf
  | .ninf, .ninf => .pinf

/-- `f64::EPSILON` = 2⁻⁵², the tolerance used by `validate_ring`
(`src/surrealgis-core/src/validation.rs`). -/
def f64EPSILON : ℚ := 1 / 2 ^ 52

/-- `f64::MAX` = 2¹⁰²⁴ - 2⁹⁷¹, the sentinel initial value of the min-folds in
`BoundingBox::from_coordinates` (`src/surrealgis-core/src/bbox.rs`). -/
def f64MAX : ℚ := ((2 ^ 1024 - 2 ^ 971 : ℕ) : ℚ)

/-- `f64::MIN` = -`f64::MAX`, the sentinel initial value of the max-folds. -/
def f64MIN : ℚ := -f64MAX

/-- `GeometryError` (`src/surrealgis-core/src/error.rs`); the message payloads
carried by the Rust enum are dropped, only the variant is kept. -/
inductive GeometryError where
  | invalidCoordinate
  | invalidGeometry
  | emptyGeometry
  | invalidSrid
deriving DecidableEq

/-- `Coordinate` (`src/surrealgis-core/src/coordinate.rs`): x, y and optional
z / m.  The fields are rationals because the constructors only accept finite
doubles. -/
structure Coordinate where
  x : ℚ
  y : ℚ
  z : Option ℚ
  m : Option ℚ
deriving DecidableEq

/-- `Coordinate::validate_finite`: accept exactly the finite values. -/
def validate_finite : EF → Except GeometryError ℚ
  | .fin q => .ok q
  | _ => .error .invalidCoordinate

/-- `Coordinate::new`: 2-D constructor, validates finiteness of x and y. -/
def Coordinate.new (x y : EF) : Except GeometryError Coordinate := do
  let xq ← validate_finite x
  let yq ← validate_finite y
  return { x := xq, y := yq, z := none, m := none }

/-- `Coordinate::new_3d`: 3-D constructor (with z). -/
def Coordinate.new_3d (x y z : EF) : Except GeometryError Coordinate := do
  let xq ← validate_finite x
  let yq ← validate_finite y
  let zq ← validate_finite z
  return { x := xq, y := yq, z := some zq, m := none }

/-- `Coordinate::new_4d`: 4-D constructor (with z and m). -/
def Coordinate.new_4d (x y z m : EF) : Except GeometryError Coordinate := do
  let xq ← validate_finite x
  let yq ← validate_finite y
  let zq ← validate_finite z
  let mq ← validate_finite m
  return { x := xq, y := yq, z := some zq, m := some mq }

/-- `BoundingBox` (`src/surrealgis-core/src/bbox.rs`). -/
structure BoundingBox where
  min_x : ℚ
  min_y : ℚ
  max_x : ℚ
  max_y : ℚ
deriving DecidableEq

/-- `BoundingBox::from_coordinates`: min/max folds over the coordinate list,
starting from the `f64::MAX` / `f64::MIN` sentinels exactly as the source
loop does; `None` on the empty list.  (The source updates all four
accumulators in one loop; the four folds below compute the same values.) -/
def BoundingBox.from_coordinates (coords : List Coordinate) : Option BoundingBox :=
  if coords.isEmpty then none
  else
    some
      { min_x := coords.foldl (fun m c => min m c.x) f64MAX
        min_y := coords.foldl (fun m c => min m c.y) f64MAX
        max_x := coords.foldl (fun m c => max m c.x) f64MIN
        max_y := coords.foldl (fun m c => max m c.y) f64MIN }

/-- `BoundingBox::intersects`: closed-interval AABB intersection. -/
def BoundingBox.intersects (a b : BoundingBox) : Bool :=
  decide (a.min_x ≤ b.max_x) && decide (a.max_x ≥ b.min_x) &&
  decide (a.min_y ≤ b.max_y) && decide (a.max_y ≥ b.min_y)

/-- `BoundingBox::contains`. -/
def BoundingBox.contains (a b : BoundingBox) : Bool :=
  decide (a.min_x ≤ b.min_x) && decide (a.max_x ≥ b.max_x) &&
  decide (a.min_y ≤ b.min_y) && decide (a.max_y ≥ b.max_y)

/-- `BoundingBox::contains_coordinate`. -/
def BoundingBox.contains_coordinate (a : BoundingBox) (c : Coordinate) : Bool :=
  decide (c.x ≥ a.min_x) && decide (c.x ≤ a.max_x) &&
  decide (c.y ≥ a.min_y) && decide (c.y ≤ a.max_y)

/-- `BoundingBox::expand`: pairwise union. -/
def BoundingBox.expand (a b : BoundingBox) : BoundingBox :=
  { min_x := min a.min_x b.min_x
    min_y := min a.min_y b.min_y
    max_x := max a.max_x b.max_x
    max_y := max a.max_y b.max_y }

/-- `validate_linestring` (`src/surrealgis-core/src/validation.rs`): at least
2 points. -/
def validate_linestring (coords : List Coordinate) : Except GeometryError Unit :=
  if coords.length < 2 then .error .invalidGeometry
  else .ok ()

/-- `validate_ring` (`src/surrealgis-core/src/validation.rs`): at least 4
points, and first/last coordinates equal up to `f64::EPSILON` per axis.  Note
the tolerance: the source compares `(first - last).abs() > f64::EPSILON`
on each axis, not exact equality. -/
def validate_ring (ring : List Coordinate) : Except GeometryError Unit :=
  if ring.length < 4 then .error .invalidGeometry
  else
    let first := ring.getD 0 ⟨0, 0, none, none⟩
    let last := ring.getD (ring.length - 1) ⟨0, 0, none, none⟩
    if |first.x - last.x| > f64EPSILON ∨ |first.y - last.y| > f64EPSILON then
      .error .invalidGeometry
    else .ok ()

/-- The hole-validation loop of `validate_polygon`: validate each hole ring in
order, stopping at the first failure. -/
def validate_holes : List (List Coordinate) → Except GeometryError Unit
  | [] => .ok ()
  | hole :: rest => do
    validate_ring hole
    validate_holes rest

/-- `validate_polygon`: exterior ring plus each hole must be valid rings (the
source wraps hole errors with an index prefix; messages are not modelled). -/
def validate_polygon (exterior : List Coordinate) (holes : List (List Coordinate)) :
    Except GeometryError Unit := do
  validate_ring exterior
  validate_holes holes

/-- `GeometryFlags` bit constants (`src/surrealgis-core/src/flags.rs`),
modelled as a `u8`-style bitset over ℕ. -/
def HAS_Z : ℕ := 1

/-- `GeometryFlags::HAS_M`. -/
def HAS_M : ℕ := 2

/-- `GeometryFlags::IS_EMPTY`. -/
def IS_EMPTY : ℕ := 4

/-- `GeometryFlags::HAS_BBOX`. -/
def HAS_BBOX : ℕ := 8

/-- `GeometryFlags::HAS_SRID`. -/
def HAS_SRID : ℕ := 16

/-- `GeometryFlags::contains` for a single-bit mask. -/
def flagsContains (flags mask : ℕ) : Bool := flags &&& mask == mask

/-- `PolygonData` (`src/surrealgis-core/src/geometry.rs`). -/
structure PolygonData where
  exterior : List Coordinate
  holes : List (List Coordinate)
deriving DecidableEq

mutual

/-- `GeometryType` (`src/surrealgis-core/src/geometry.rs`): the tagged union
over the seven shape variants, recursive through `GeometryCollection`. -/
inductive GeometryType where
  | point (c : Coordinate)
  | lineString (coords : List Coordinate)
  | polygon (exterior : List Coordinate) (holes : List (List Coordinate))
  | multiPoint (coords : List Coordinate)
  | multiLineString (lines : List (List Coordinate))
  | multiPolygon (polygons : List PolygonData)
  | geometryCollection (geoms : List SurrealGeometry)

/-- `SurrealGeometry` (`src/surrealgis-core/src/geometry.rs`): the aggregate
root — variant, srid, cached bbox, flags bitset.  The `Srid` newtype is
modelled as its underlying integer code. -/
inductive SurrealGeometry where
  | mk (geometry_type : GeometryType) (srid : ℤ) (bbox : Option BoundingBox) (flags : ℕ)

end

/-- Accessor for the `geometry_type` field. -/
def SurrealGeometry.geometry_type : SurrealGeometry → GeometryType
  | .mk gt _ _ _ => gt

/-- Accessor for the `srid` field. -/
def SurrealGeometry.srid : SurrealGeometry → ℤ
  | .mk _ s _ _ => s

/-- Accessor for the cached `bbox` field. -/
def SurrealGeometry.bbox : SurrealGeometry → Option BoundingBox
  | .mk _ _ b _ => b

/-- Accessor for the `flags` field. -/
def SurrealGeometry.flags : SurrealGeometry → ℕ
  | .mk _ _ _ f => f

/-- The flag value every smart constructor derives: `HAS_SRID`, plus
`HAS_BBOX` when the computed bbox is present (`let mut flags = HAS_SRID;
if bbox.is_some() { flags |= HAS_BBOX }`). -/
def derivedFlags (bbox : Option BoundingBox) : ℕ :=
  if bbox.isSome then HAS_SRID ||| HAS_BBOX else HAS_SRID

/-- `SurrealGeometry::point`: validates the coordinate, derives bbox and
flags. -/
def SurrealGeometry.point (x y : EF) (srid : ℤ) :
    Except GeometryError SurrealGeometry := do
  let c ← Coordinate.new x y
  let bbox := BoundingBox.from_coordinates [c]
  return .mk (.point c) srid bbox (derivedFlags bbox)

/-- `SurrealGeometry::line_string`. -/
def SurrealGeometry.line_string (coords : List Coordinate) (srid : ℤ) :
    Except GeometryError SurrealGeometry := do
  validate_linestring coords
  let bbox := BoundingBox.from_coordinates coords
  return .mk (.lineString coords) srid bbox (derivedFlags bbox)

/-- `SurrealGeometry::polygon`: note the bbox is computed from the exterior
ring only. -/
def SurrealGeometry.polygon (exterior : List Coordinate)
    (holes : List (List Coordinate)) (srid : ℤ) :
    Except GeometryError SurrealGeometry := do
  validate_polygon exterior holes
  let bbox := BoundingBox.from_coordinates exterior
  return .mk (.polygon exterior holes) srid bbox (derivedFlags bbox)

/-- `SurrealGeometry::multi_point`. -/
def SurrealGeometry.multi_point (coords : List Coordinate) (srid : ℤ) :
    Except GeometryError SurrealGeometry := do
  if coords.isEmpty then throw .emptyGeometry
  let bbox := BoundingBox.from_coordinates coords
  return .mk (.multiPoint coords) srid bbox (derivedFlags bbox)

/-- The per-line validation loop of `multi_line_string`. -/
def validate_lines : List (List Coordinate) → Except GeometryError Unit
  | [] => .ok ()
  | line :: rest => do
    validate_linestring line
    validate_lines rest

/-- `SurrealGeometry::multi_line_string`: bbox over the flattened coordinate
list of all member lines. -/
def SurrealGeometry.multi_line_string (lines : List (List Coordinate)) (srid : ℤ) :
    Except GeometryError SurrealGeometry := do
  if lines.isEmpty then throw .emptyGeometry
  validate_lines lines
  let bbox := BoundingBox.from_coordinates lines.flatten
  return .mk (.multiLineString lines) srid bbox (derivedFlags bbox)

/-- The per-polygon validation loop of `multi_polygon`. -/
def validate_polygons : List PolygonData → Except GeometryError Unit
  | [] => .ok ()
  | poly :: rest => do
    validate_polygon poly.exterior poly.holes
    validate_polygons rest

/-- `SurrealGeometry::multi_polygon`: the bbox folds over the exterior rings
of all member polygons (hole coordinates are not visited). -/
def SurrealGeometry.multi_polygon (polygons : List PolygonData) (srid : ℤ) :
    Except GeometryError SurrealGeometry := do
  if polygons.isEmpty then throw .emptyGeometry
  validate_polygons polygons
  let bbox := BoundingBox.from_coordinates (polygons.flatMap (·.exterior))
  return .mk (.multiPolygon polygons) srid bbox (derivedFlags bbox)

/-- The child-bbox fold of `geometry_collection` and of `compute_bbox_for`:
pairwise union of the children's cached boxes, skipping absent ones. -/
def foldChildBBoxes (geoms : List SurrealGeometry) : Option BoundingBox :=
  geoms.foldl
    (fun acc g =>
      match acc, g.bbox with
      | none, some b => some b
      | some a, some b => some (a.expand b)
      | a, none => a)
    none

/-- `SurrealGeometry::geometry_collection`: bbox is the union of the
children's cached boxes. -/
def SurrealGeometry.geometry_collection (geoms : List SurrealGeometry) (srid : ℤ) :
    Except GeometryError SurrealGeometry := do
  if geoms.isEmpty then throw .emptyGeometry
  let bbox := foldChildBBoxes geoms
  return .mk (.geometryCollection geoms) srid bbox (derivedFlags bbox)

/-- `SurrealGeometry::compute_bbox_for` (`src/surrealgis-core/src/geometry.rs`
lines 299-329): variant-specific bbox derivation.  For `Polygon` and
`MultiPolygon` only the exterior rings are folded; for collections the
children's cached boxes are union-folded. -/
def compute_bbox_for : GeometryType → Option BoundingBox
  | .point c => BoundingBox.from_coordinates [c]
  | .lineString coords => BoundingBox.from_coordinates coords
  | .polygon exterior _ => BoundingBox.from_coordinates exterior
  | .multiPoint coords => BoundingBox.from_coordinates coords
  | .multiLineString lines => BoundingBox.from_coordinates lines.flatten
  | .multiPolygon polygons =>
      BoundingBox.from_coordinates (polygons.flatMap (·.exterior))
  | .geometryCollection geoms => foldChildBBoxes geoms

mutual

/-- All leaf coordinates of a geometry variant, recursively through
collections, including polygon hole rings.  This follows the spec's words
("the union of the bounding boxes of all leaf coordinates, recursively"); it
is the spec-side reference for the bbox invariant claim. -/
def GeometryType.leafCoords : GeometryType → List Coordinate
  | .point c => [c]
  | .lineString coords => coords
  | .polygon exterior holes => exterior ++ holes.flatten
  | .multiPoint coords => coords
  | .multiLineString lines => lines.flatten
  | .multiPolygon polygons =>
      polygons.flatMap (fun p => p.exterior ++ p.holes.flatten)
  | .geometryCollection geoms => leafCoordsOfList geoms

/-- Leaf coordinates of a list of child geometries. -/
def leafCoordsOfList : List SurrealGeometry → List Coordinate
  | [] => []
  | .mk gt _ _ _ :: rest => gt.leafCoords ++ leafCoordsOfList rest

end

mutual

/-- The leaf coordinates a geometry's cached bbox is actually derived from:
the same lists as `leafCoords`, except that polygon hole rings are omitted
(mirroring the folds in `compute_bbox_for` and the smart constructors). -/
def GeometryType.extLeafCoords : GeometryType → List Coordinate
  | .point c => [c]
  | .lineString coords => coords
  | .polygon exterior _ => exterior
  | .multiPoint coords => coords
  | .multiLineString lines => lines.flatten
  | .multiPolygon polygons => polygons.flatMap (·.exterior)
  | .geometryCollection geoms => extLeafCoordsOfList geoms

/-- Exterior-only leaf coordinates of a list of child geometries. -/
def extLeafCoordsOfList : List SurrealGeometry → List Coordinate
  | [] => []
  | .mk gt _ _ _ :: rest => gt.extLeafCoords ++ extLeafCoordsOfList rest

end

/-- The bounding box of a single coordinate (a degenerate box). -/
def coordBBox (c : Coordinate) : BoundingBox :=
  { min_x := c.x, min_y := c.y, max_x := c.x, max_y := c.y }

/-- Spec-side definition: the union of the bounding boxes of a list of
coordinates — the pairwise `expand`-fold of the degenerate per-coordinate
boxes, `none` exactly when the list is empty.  Written from the spec's words,
to be compared against the code's `BoundingBox.from_coordinates`. -/
def specBBoxUnion (coords : List Coordinate) : Option BoundingBox :=
  coords.foldl
    (fun acc c =>
      match acc with
      | none => some (coordBBox c)
      | some b => some (b.expand (coordBBox c)))
    none

/-- A coordinate whose components lie in the range of finite doubles.  Every
finite `f64` satisfies this; it is the hypothesis under which the
sentinel-initialised folds of `from_coordinates` agree with the true min/max. -/
def boundedCoord (c : Coordinate) : Prop :=
  -f64MAX ≤ c.x ∧ c.x ≤ f64MAX ∧ -f64MAX ≤ c.y ∧ c.y ≤ f64MAX

instance (c : Coordinate) : Decidable (boundedCoord c) := by
  unfold boundedCoord
  infer_instance

/-- The geometries producible by the smart constructors ("validly constructed"
in the spec's sense): each case records that the corresponding constructor
returned `Ok` on the geometry, with collection children themselves
constructed. -/
inductive Constructed : SurrealGeometry → Prop where
  | point (x y : EF) (srid : ℤ) (g : SurrealGeometry)
      (h : SurrealGeometry.point x y srid = .ok g) : Constructed g
  | lineString (coords : List Coordinate) (srid : ℤ) (g : SurrealGeometry)
      (h : SurrealGeometry.line_string coords srid = .ok g) : Constructed g
  | polygon (exterior : List Coordinate) (holes : List (List Coordinate))
      (srid : ℤ) (g : SurrealGeometry)
      (h : SurrealGeometry.polygon exterior holes srid = .ok g) : Constructed g
  | multiPoint (coords : List Coordinate) (srid : ℤ) (g : SurrealGeometry)
      (h : SurrealGeometry.multi_point coords srid = .ok g) : Constructed g
  | multiLineString (lines : List (List Coordinate)) (srid : ℤ)
      (g : SurrealGeometry)
      (h : SurrealGeometry.multi_line_string lines srid = .ok g) : Constructed g
  | multiPolygon (polygons : List PolygonData) (srid : ℤ) (g : SurrealGeometry)
      (h : SurrealGeometry.multi_polygon polygons srid = .ok g) : Constructed g
  | geometryCollection (geoms : List SurrealGeometry) (srid : ℤ)
      (g : SurrealGeometry)
      (hchildren : ∀ child ∈ geoms, Constructed child)
      (h : SurrealGeometry.geometry_collection geoms srid = .ok g) :
      Constructed g

/-- `IndexError` (`src/surrealgis-index/src/spatial_index.rs`). -/
inductive IndexError where
  | indexError
  | noBoundingBox
deriving DecidableEq

/-- `IndexedGeometry` (`src/surrealgis-index/src/indexed_geometry.rs`): an id
plus an axis-aligned envelope, decoupled from the geometry payload.  In the
source, `PartialEq` compares by id only; the structural equality of this model
is not used for removal — `removeEntry` below compares ids, mirroring that. -/
structure IndexedGeometry where
  id : ℕ
  min_x : ℚ
  min_y : ℚ
  max_x : ℚ
  max_y : ℚ
deriving DecidableEq

/-- `IndexedGeometry::new`: build an entry from an id and a bounding box. -/
def IndexedGeometry.new (id : ℕ) (bbox : BoundingBox) : IndexedGeometry :=
  { id := id, min_x := bbox.min_x, min_y := bbox.min_y,
    max_x := bbox.max_x, max_y := bbox.max_y }

/-- Point-to-envelope squared Euclidean distance.  Modelled from the spec:
the `rstar` crate (an external dependency) supplies `AABB::distance_2`, the
squared distance from a point to the nearest point of the box; the spec
describes all index queries in terms of this point-to-envelope Euclidean
distance. -/
def IndexedGeometry.distance_2 (e : IndexedGeometry) (px py : ℚ) : ℚ :=
  let cx := max e.min_x (min px e.max_x)
  let cy := max e.min_y (min py e.max_y)
  (px - cx) * (px - cx) + (py - cy) * (py - cy)

/-- Closed-interval intersection between an entry's envelope and a query box,
as used by `rstar`'s `locate_in_envelope_intersecting` (modelled from the
spec: touching edges/corners count as intersecting). -/
def IndexedGeometry.intersectsBox (e : IndexedGeometry) (q : BoundingBox) : Bool :=
  decide (e.min_x ≤ q.max_x) && decide (e.max_x ≥ q.min_x) &&
  decide (e.min_y ≤ q.max_y) && decide (e.max_y ≥ q.min_y)

/-- The R*-tree state, modelled as the list of stored entries in insertion
order (the tree structure affects only performance, not query results). -/
def RTreeState := List IndexedGeometry

/-- The point-to-envelope distance preorder on entries, for a fixed query
point. -/
def distLe (px py : ℚ) (a b : IndexedGeometry) : Bool :=
  decide (a.distance_2 px py ≤ b.distance_2 px py)

/-- All entries sorted by ascending point-to-envelope squared distance.
Modelled from the spec: `rstar`'s `nearest_neighbor_iter` yields entries in
ascending distance order, ties broken arbitrarily but deterministically per
snapshot; a stable insertion sort realises one such deterministic order. -/
def sortByDist (px py : ℚ) (t : List IndexedGeometry) : List IndexedGeometry :=
  t.insertionSort (fun a b => distLe px py a b)

/-- `RTreeSpatialIndex::insert` (`src/surrealgis-index/src/rtree_index.rs`):
fails with `NoBoundingBox` when the geometry has no cached bbox, otherwise
stores (id, envelope). -/
def rtreeInsert (t : List IndexedGeometry) (id : ℕ) (g : SurrealGeometry) :
    Except IndexError (List IndexedGeometry) :=
  match g.bbox with
  | none => .error .noBoundingBox
  | some b => .ok (t ++ [IndexedGeometry.new id b])

/-- `RTreeSpatialIndex::bulk_load`: converts every entry up front, failing
atomically if any geometry lacks a bbox. -/
def rtreeBulkLoad : List (ℕ × SurrealGeometry) →
    Except IndexError (List IndexedGeometry)
  | [] => .ok []
  | (id, g) :: rest =>
    match g.bbox with
    | none => .error .noBoundingBox
    | some b => do
      let t ← rtreeBulkLoad rest
      return IndexedGeometry.new id b :: t

/-- `RTreeSpatialIndex::query_bbox`: ids of all entries whose envelope
intersects the query box (closed-interval semantics). -/
def query_bbox (t : List IndexedGeometry) (q : BoundingBox) : List ℕ :=
  (t.filter (fun e => e.intersectsBox q)).map (·.id)

/-- `RTreeSpatialIndex::query_nearest`: the k nearest entries by ascending
point-to-envelope distance.  The source maps each entry to
`(id, distance_2.sqrt())`; since the square root of a rational is in general
irrational, the model returns the squared distance (the radicand) — the
claims about linear distances are stated through `Real.sqrt` of this value. -/
def query_nearest (t : List IndexedGeometry) (px py : ℚ) (k : ℕ) :
    List (ℕ × ℚ) :=
  ((sortByDist px py t).take k).map (fun e => (e.id, e.distance_2 px py))

/-- `RTreeSpatialIndex::query_within_distance`: squares the caller's linear
distance (`let distance_sq = distance * distance`) and keeps the ids of all
entries whose squared point-to-envelope distance is at most it (`rstar`'s
`locate_within_distance` selection is closed at the boundary, modelled from
the spec). -/
def query_within_distance (t : List IndexedGeometry) (px py dist : ℚ) : List ℕ :=
  (t.filter (fun e => decide (e.distance_2 px py ≤ dist * dist))).map (·.id)

/-- `RTreeSpatialIndex::remove`: find an entry with the given id (the source
scans `tree.iter()` and then calls `rstar`'s `remove`, which removes one
element comparing `PartialEq`-equal, i.e. equal by id); returns the new state
and whether anything was removed. -/
def rtreeRemove (t : List IndexedGeometry) (id : ℕ) :
    List IndexedGeometry × Bool :=
  match t.find? (fun e => e.id == id) with
  | none => (t, false)
  | some _ => (t.eraseP (fun e => e.id == id), true)

/-- `RTreeSpatialIndex::len`. -/
def rtreeLen (t : List IndexedGeometry) : ℕ := t.length

/-- `FunctionError` (`src/surrealgis-functions/src/lib.rs`); message payloads
dropped. -/
inductive FnError where
  | geometryError (e : GeometryError)
  | invalidArgument
  | unsupportedOperation
  | crsError
deriving DecidableEq

/-- A clustering input point: the 2-D centroid of one input geometry.  The
clustering entry points first map each geometry to its centroid through
`extract_centroids` (which delegates to the external `geo` crate); the model
takes the centroid list directly — for Point inputs the centroid is the point
itself. -/
abbrev Pt := ℚ × ℚ

/-- Squared Euclidean distance between two points, as computed inline by both
`region_query` and the union-find pair scan (`dx*dx + dy*dy`). -/
def sqDist (p q : Pt) : ℚ :=
  (p.1 - q.1) * (p.1 - q.1) + (p.2 - q.2) * (p.2 - q.2)

/-- `region_query` (`src/surrealgis-functions/src/clustering/st_cluster_dbscan.rs`):
indices of all points within squared distance `epsSq` of point `i` (the
comparison is IEEE `<=` against the possibly non-finite `eps * eps`). -/
def regionQuery (pts : List Pt) (epsSq : EF) (i : ℕ) : List ℕ :=
  (List.range pts.length).filter
    (fun j => EF.le (.fin (sqDist (pts.getD i (0, 0)) (pts.getD j (0, 0)))) epsSq)

/-- The mutable state of the DBSCAN scan: per-index cluster assignment and
visited flag (`assignments` / `visited` vectors in the source). -/
structure DBState where
  assign : ℕ → Option ℕ
  visited : ℕ → Bool

/-- Mark index `j` visited (`visited[j] = true`). -/
def markVisited (j : ℕ) (s : DBState) : DBState :=
  { s with visited := fun k => if k = j then true else s.visited k }

/-- The state update applied to the dequeued point `j` in the expansion
loop: mark it visited (a no-op when it already is) and, when it has no
assignment yet, assign it to the current cluster
(`if assignments[j].is_none() { assignments[j] = Some(cluster_id) }`). -/
def expandState (cid j : ℕ) (s : DBState) : DBState :=
  { visited := fun k => if k = j then true else s.visited k
    assign := fun k =>
      if k = j then some ((s.assign j).getD cid) else s.assign k }

/-- The queue growth for the dequeued point `j`: when `j` was unvisited and
is dense, append its neighbors not already in the queue (the source pushes
them one by one checking `queue.contains`; since `region_query` returns
duplicate-free indices this equals this batch filter). -/
def expandQueue (N : ℕ → List ℕ) (minPts : ℕ) (queue : List ℕ) (j : ℕ)
    (s : DBState) : List ℕ :=
  if !s.visited j && decide (minPts ≤ (N j).length) then
    queue ++ (N j).filter (fun nb => !queue.contains nb)
  else queue

/-- The breadth-first cluster-expansion loop of `st_cluster_dbscan`
(`while qi < queue.len()`), with explicit fuel (the loop runs at most
`queue.len() ≤ n` iterations since the queue is duplicate-free; callers pass
fuel `n + 1`, which is never exhausted). -/
def dbscanExpand (N : ℕ → List ℕ) (minPts cid : ℕ) :
    ℕ → List ℕ → ℕ → DBState → DBState
  | 0, _, _, s => s
  | fuel + 1, queue, qi, s =>
    if h : qi < queue.length then
      dbscanExpand N minPts cid fuel
        (expandQueue N minPts queue (queue.get ⟨qi, h⟩) s) (qi + 1)
        (expandState cid (queue.get ⟨qi, h⟩) s)
    else s

/-- Seed a new cluster at index `i` (`assignments[i] = Some(cluster_id)`). -/
def seedCluster (cid i : ℕ) (s : DBState) : DBState :=
  { s with assign := fun k => if k = i then some cid else s.assign k }

/-- The outer `for i in 0..n` loop of `st_cluster_dbscan`: skip visited
points; mark the point visited; if its neighborhood is below the density
threshold leave it unassigned (candidate noise); otherwise open a new cluster
seeded at `i` and expand it breadth-first, then increment the cluster id. -/
def dbscanOuter (N : ℕ → List ℕ) (minPts n : ℕ) :
    List ℕ → ℕ → DBState → DBState
  | [], _, s => s
  | i :: rest, cid, s =>
    if s.visited i then dbscanOuter N minPts n rest cid s
    else if (N i).length < minPts then
      dbscanOuter N minPts n rest cid (markVisited i s)
    else
      dbscanOuter N minPts n rest (cid + 1)
        (dbscanExpand N minPts cid (n + 1) (N i) 0
          (seedCluster cid i (markVisited i s)))

/-- The final DBSCAN assignment function for a given input: the `assignments`
vector after the scan, as a function of the index. -/
def dbscanAssignFun (pts : List Pt) (eps : EF) (minPts : ℕ) : ℕ → Option ℕ :=
  (dbscanOuter (regionQuery pts (eps.mul eps)) minPts pts.length
    (List.range pts.length) 0
    { assign := fun _ => none, visited := fun _ => false }).assign

/-- The DBSCAN `assignments` vector (one `Option` cluster id per input). -/
def dbscanAssignments (pts : List Pt) (eps : EF) (minPts : ℕ) :
    List (Option ℕ) :=
  (List.range pts.length).map (dbscanAssignFun pts eps minPts)

/-- Distinct values of a list in order of first occurrence (the insertion
order of `HashMap` keys in `build_cluster_result` and of the union-find
renumbering map). -/
def uniqueInOrder : List ℕ → List ℕ
  | [] => []
  | a :: l => a :: (uniqueInOrder l).filter (fun b => b ≠ a)

/-- Insertion of a number into a sorted list (ascending). -/
def insertNat (a : ℕ) : List ℕ → List ℕ
  | [] => [a]
  | b :: l => if a ≤ b then a :: b :: l else b :: insertNat a l

/-- Ascending insertion sort on ℕ (`keys.sort()` in `build_cluster_result`). -/
def sortNat : List ℕ → List ℕ
  | [] => []
  | a :: l => insertNat a (sortNat l)

/-- `build_cluster_result` (`src/surrealgis-functions/src/clustering/mod.rs`):
group the input points by assigned cluster id (noise = `None` omitted), fail
when no cluster was formed, and emit one point group per cluster id in
ascending id order.  The result geometry — a GeometryCollection of
MultiPoints built through the external `geo_types` conversion — is modelled
as the list of per-cluster point lists. -/
def buildClusterResult (pts : List Pt) (assigns : List (Option ℕ)) :
    Except FnError (List (List Pt)) :=
  let keys := uniqueInOrder (assigns.filterMap id)
  if keys.isEmpty then .error .invalidArgument
  else
    .ok ((sortNat keys).map (fun k =>
      (pts.zip assigns).filterMap
        (fun pa => if pa.2 = some k then some pa.1 else none)))

/-- `st_cluster_dbscan`
(`src/surrealgis-functions/src/clustering/st_cluster_dbscan.rs`): validation
(empty input, `eps < 0.0`, `min_points == 0` — note `eps < 0.0` is an IEEE
comparison, false for NaN), then the density scan, then result building. -/
def st_cluster_dbscan (pts : List Pt) (eps : EF) (min_points : ℕ) :
    Except FnError (List (List Pt)) :=
  if pts.isEmpty then .error .invalidArgument
  else if EF.lt eps (.fin 0) then .error .invalidArgument
  else if min_points = 0 then .error .invalidArgument
  else buildClusterResult pts (dbscanAssignments pts eps min_points)

/-- `find` with path compression
(`src/surrealgis-functions/src/clustering/st_cluster_within.rs`): the model
follows parent links with fuel `n` and no compression — compression reparents
nodes to the root they already reach, so every `find` result is unchanged;
with union-by-rank the parent chains have length < n, so fuel `n` suffices. -/
def ufFind (parent : ℕ → ℕ) : ℕ → ℕ → ℕ
  | 0, i => i
  | fuel + 1, i => if parent i = i then i else ufFind parent fuel (parent i)

/-- `union` by rank (`st_cluster_within.rs`): links the two roots, preferring
the higher-ranked root as the new parent; equal ranks attach `b`'s root under
`a`'s and bump the rank. -/
def ufUnion (parent rank : ℕ → ℕ) (fuel a b : ℕ) : (ℕ → ℕ) × (ℕ → ℕ) :=
  let ra := ufFind parent fuel a
  let rb := ufFind parent fuel b
  if ra = rb then (parent, rank)
  else if rank ra < rank rb then (fun k => if k = ra then rb else parent k, rank)
  else if rank rb < rank ra then (fun k => if k = rb then ra else parent k, rank)
  else
    (fun k => if k = rb then ra else parent k,
     fun k => if k = ra then rank ra + 1 else rank k)

/-- The `for i in 0..n { for j in (i+1)..n { … } }` pair enumeration of the
union-find scan, in iteration order. -/
def pairList (n : ℕ) : List (ℕ × ℕ) :=
  (List.range n).flatMap
    (fun i => ((List.range n).filter (fun j => i < j)).map (fun j => (i, j)))

/-- The union-find parent function after the pairwise scan of
`st_cluster_within`: union every pair of points within the squared distance
threshold (IEEE `<=` against the possibly non-finite `distance * distance`). -/
def withinParent (pts : List Pt) (distSq : EF) : ℕ → ℕ :=
  (pairList pts.length).foldl
    (fun pr ij =>
      if EF.le (.fin (sqDist (pts.getD ij.1 (0, 0)) (pts.getD ij.2 (0, 0)))) distSq
      then ufUnion pr.1 pr.2 pts.length ij.1 ij.2
      else pr)
    (fun k => k, fun _ => 0) |>.1

/-- Index of the first occurrence of `r` in a list (`0` when absent; used
only on members). -/
def firstIdx (r : ℕ) : List ℕ → ℕ
  | [] => 0
  | a :: l => if a = r then 0 else firstIdx r l + 1

/-- The cluster assignments of `st_cluster_within`: each index's root,
renumbered by first encounter (the `cluster_map` HashMap with `next_id`). -/
def withinAssignments (pts : List Pt) (distSq : EF) : List (Option ℕ) :=
  let roots := (List.range pts.length).map
    (fun i => ufFind (withinParent pts distSq) pts.length i)
  roots.map (fun r => some (firstIdx r (uniqueInOrder roots)))

/-- `st_cluster_within`
(`src/surrealgis-functions/src/clustering/st_cluster_within.rs`): validation
(empty input, `distance < 0.0` — an IEEE comparison, false for NaN), then the
union-find pair scan, root renumbering, and result building. -/
def st_cluster_within (pts : List Pt) (distance : EF) :
    Except FnError (List (List Pt)) :=
  if pts.isEmpty then .error .invalidArgument
  else if EF.lt distance (.fin 0) then .error .invalidArgument
  else buildClusterResult pts (withinAssignments pts (distance.mul distance))

/-! ### Inversion lemmas for the smart constructors -/

theorem point_ok {x y : EF} {srid : ℤ} {g : SurrealGeometry}
    (h : SurrealGeometry.point x y srid = .ok g) :
    ∃ c, Coordinate.new x y = .ok c ∧
      g = .mk (.point c) srid (BoundingBox.from_coordinates [c])
        (derivedFlags (BoundingBox.from_coordinates [c])) := by
  unfold SurrealGeometry.point at h
  cases hv : Coordinate.new x y with
  | error e => rw [hv] at h; simp [Bind.bind, Except.bind] at h
  | ok c =>
    rw [hv] at h
    simp [Bind.bind, Except.bind, pure, Except.pure] at h
    exact ⟨c, rfl, h.symm⟩

theorem line_string_ok {coords : List Coordinate} {srid : ℤ} {g : SurrealGeometry}
    (h : SurrealGeometry.line_string coords srid = .ok g) :
    validate_linestring coords = .ok () ∧
    g = .mk (.lineString coords) srid (BoundingBox.from_coordinates coords)
      (derivedFlags (BoundingBox.from_coordinates coords)) := by
  unfold SurrealGeometry.line_string at h
  cases hv : validate_linestring coords with
  | error e => rw [hv] at h; simp [Bind.bind, Except.bind] at h
  | ok u =>
    cases u
    rw [hv] at h
    simp [Bind.bind, Except.bind, pure, Except.pure] at h
    exact ⟨rfl, h.symm⟩

theorem polygon_ok {exterior : List Coordinate} {holes : List (List Coordinate)}
    {srid : ℤ} {g : SurrealGeometry}
    (h : SurrealGeometry.polygon exterior holes srid = .ok g) :
    validate_polygon exterior holes = .ok () ∧
    g = .mk (.polygon exterior holes) srid (BoundingBox.from_coordinates exterior)
      (derivedFlags (BoundingBox.from_coordinates exterior)) := by
  unfold SurrealGeometry.polygon at h
  cases hv : validate_polygon exterior holes with
  | error e => rw [hv] at h; simp [Bind.bind, Except.bind] at h
  | ok u =>
    cases u
    rw [hv] at h
    simp [Bind.bind, Except.bind, pure, Except.pure] at h
    exact ⟨rfl, h.symm⟩

theorem multi_point_ok {coords : List Coordinate} {srid : ℤ} {g : SurrealGeometry}
    (h : SurrealGeometry.multi_point coords srid = .ok g) :
    coords ≠ [] ∧
    g = .mk (.multiPoint coords) srid (BoundingBox.from_coordinates coords)
      (derivedFlags (BoundingBox.from_coordinates coords)) := by
  unfold SurrealGeometry.multi_point at h
  by_cases he : coords.isEmpty
  · simp [he, Bind.bind, Except.bind, throw, throwThe, MonadExceptOf.throw] at h
  · simp [he, Bind.bind, Except.bind, pure, Except.pure] at h
    exact ⟨by simpa [List.isEmpty_iff] using he, h.symm⟩

theorem multi_line_string_ok {lines : List (List Coordinate)} {srid : ℤ}
    {g : SurrealGeometry}
    (h : SurrealGeometry.multi_line_string lines srid = .ok g) :
    lines ≠ [] ∧ validate_lines lines = .ok () ∧
    g = .mk (.multiLineString lines) srid
      (BoundingBox.from_coordinates lines.flatten)
      (derivedFlags (BoundingBox.from_coordinates lines.flatten)) := by
  unfold SurrealGeometry.multi_line_string at h
  by_cases he : lines.isEmpty
  · simp [he, Bind.bind, Except.bind, throw, throwThe, MonadExceptOf.throw] at h
  · simp only [he, if_false] at h
    cases hv : validate_lines lines with
    | error e =>
      rw [hv] at h
      simp [Bind.bind, Except.bind, pure, Except.pure, throw, throwThe,
        MonadExceptOf.throw] at h
    | ok u =>
      cases u
      rw [hv] at h
      simp [Bind.bind, Except.bind, pure, Except.pure] at h
      exact ⟨by simpa [List.isEmpty_iff] using he, rfl, h.symm⟩

theorem multi_polygon_ok {polygons : List PolygonData} {srid : ℤ}
    {g : SurrealGeometry}
    (h : SurrealGeometry.multi_polygon polygons srid = .ok g) :
    polygons ≠ [] ∧ validate_polygons polygons = .ok () ∧
    g = .mk (.multiPolygon polygons) srid
      (BoundingBox.from_coordinates (polygons.flatMap (·.exterior)))
      (derivedFlags (BoundingBox.from_coordinates (polygons.flatMap (·.exterior)))) := by
  unfold SurrealGeometry.multi_polygon at h
  by_cases he : polygons.isEmpty
  · simp [he, Bind.bind, Except.bind, throw, throwThe, MonadExceptOf.throw] at h
  · simp only [he, if_false] at h
    cases hv : validate_polygons polygons with
    | error e =>
      rw [hv] at h
      simp [Bind.bind, Except.bind, pure, Except.pure, throw, throwThe,
        MonadExceptOf.throw] at h
    | ok u =>
      cases u
      rw [hv] at h
      simp [Bind.bind, Except.bind, pure, Except.pure] at h
      exact ⟨by simpa [List.isEmpty_iff] using he, rfl, h.symm⟩

theorem geometry_collection_ok {geoms : List SurrealGeometry} {srid : ℤ}
    {g : SurrealGeometry}
    (h : SurrealGeometry.geometry_collection geoms srid = .ok g) :
    geoms ≠ [] ∧
    g = .mk (.geometryCollection geoms) srid (foldChildBBoxes geoms)
      (derivedFlags (foldChildBBoxes geoms)) := by
  unfold SurrealGeometry.geometry_collection at h
  by_cases he : geoms.isEmpty
  · simp [he, Bind.bind, Except.bind, throw, throwThe, MonadExceptOf.throw] at h
  · simp [he, Bind.bind, Except.bind, pure, Except.pure] at h
    exact ⟨by simpa [List.isEmpty_iff] using he, h.symm⟩


/-- Decidable equality of `Except` results, for evaluating the model at
concrete inputs. -/
instance {ε α : Type} [DecidableEq ε] [DecidableEq α] : DecidableEq (Except ε α) := fun a b =>
  match a, b with
  | .ok x, .ok y => decidable_of_decidable_of_iff (p := x = y) (by simp)
  | .error x, .error y => decidable_of_decidable_of_iff (p := x = y) (by simp)
  | .ok _, .error _ => isFalse (fun h => Except.noConfusion h)
  | .error _, .ok _ => isFalse (fun h => Except.noConfusion h)

/-- C3 counterexample: a 4-point ring whose first coordinate (0,0) differs
from its last coordinate (2⁻⁵², 0) — a difference of exactly `f64::EPSILON` —
is accepted by `validate_ring`, so "a ring whose first coordinate differs
from its last coordinate is always rejected" is false. -/
theorem ring_epsilon_gap_counterexample :
    validate_ring
      [⟨0, 0, none, none⟩, ⟨1, 0, none, none⟩, ⟨1, 1, none, none⟩,
       ⟨1 / 2 ^ 52, 0, none, none⟩] = .ok () ∧
    ([⟨0, 0, none, none⟩, ⟨1, 0, none, none⟩, ⟨1, 1, none, none⟩,
      ⟨1 / 2 ^ 52, 0, none, none⟩] : List Coordinate).head? ≠
      ([⟨0, 0, none, none⟩, ⟨1, 0, none, none⟩, ⟨1, 1, none, none⟩,
        ⟨1 / 2 ^ 52, 0, none, none⟩] : List Coordinate).getLast? := by
  with_unfolding_all decide

/-- C3 amended: ring validation is epsilon-tolerant, not exact.  A ring is
accepted iff it has at least 4 points and its first and last coordinates
agree within `f64::EPSILON` on each axis; in particular a ring with ≥ 4
points whose first coordinate is exactly equal to its last is always
accepted, and one whose first and last coordinates differ by more than
`f64::EPSILON` on some axis is always rejected. -/
theorem validate_ring_epsilon_spec (ring : List Coordinate) (f l : Coordinate)
    (hf : ring.head? = some f) (hl : ring.getLast? = some l) :
    (validate_ring ring = .ok () ↔
      4 ≤ ring.length ∧ |f.x - l.x| ≤ f64EPSILON ∧ |f.y - l.y| ≤ f64EPSILON) ∧
    (4 ≤ ring.length → f = l → validate_ring ring = .ok ()) := by
  have heps : (0 : ℚ) ≤ f64EPSILON := by norm_num [f64EPSILON]
  have h0 : ring.getD 0 ⟨0, 0, none, none⟩ = f := by
    cases ring with
    | nil => simp at hf
    | cons a t =>
      simp only [List.head?_cons, Option.some.injEq] at hf
      simp [List.getD, hf]
  have h1 : ring.getD (ring.length - 1) ⟨0, 0, none, none⟩ = l := by
    have h2 := List.getLast?_eq_getElem? ring
    rw [hl] at h2
    simp [List.getD, ← h2]
  have main : validate_ring ring = .ok () ↔
      4 ≤ ring.length ∧ |f.x - l.x| ≤ f64EPSILON ∧ |f.y - l.y| ≤ f64EPSILON := by
    unfold validate_ring
    rw [h0, h1]
    by_cases hlen : ring.length < 4
    · rw [if_pos hlen]
      refine ⟨fun h => Except.noConfusion h, fun h => absurd h.1 (by omega)⟩
    · rw [if_neg hlen]
      by_cases habs : |f.x - l.x| > f64EPSILON ∨ |f.y - l.y| > f64EPSILON
      · rw [if_pos habs]
        refine ⟨fun h => Except.noConfusion h, fun h => ?_⟩
        rcases habs with hx | hy
        · exact absurd h.2.1 (not_le.mpr hx)
        · exact absurd h.2.2 (not_le.mpr hy)
      · rw [if_neg habs]
        push_neg at habs
        exact ⟨fun _ => ⟨by omega, habs.1, habs.2⟩, fun _ => rfl⟩
  refine ⟨main, fun hlen heq => main.mpr ⟨hlen, ?_, ?_⟩⟩
  · rw [heq, sub_self, abs_zero]
    exact heps
  · rw [heq, sub_self, abs_zero]
    exact heps

/-- C9 counterexample: a LineString constructed from coordinates that all
carry z values has `HAS_Z` unset (the smart constructors never set `HAS_Z`,
`HAS_M` or `IS_EMPTY`), so "has-Z is set exactly when the geometry's
coordinates carry z values" is false. -/
theorem flags_z_not_set_counterexample :
    (SurrealGeometry.line_string
      [⟨0, 0, some 1, none⟩, ⟨1, 1, some 2, none⟩] 4326).toOption.map
        (fun g => (flagsContains g.flags HAS_Z,
          g.geometry_type.leafCoords.all (fun c => c.z.isSome))) =
      some (false, true) := by
  with_unfolding_all decide

/-- C9 amended: every smart constructor derives the flags from the bbox
only: the result's flags are exactly `HAS_SRID` plus, when the cached bbox is
present, `HAS_BBOX`; the `HAS_Z`, `HAS_M` and `IS_EMPTY` bits are never set,
regardless of whether the coordinates carry z/m values or the geometry is
empty, and flags change only through construction (or the bbox recompute
operation). -/
theorem constructor_flags_spec (g : SurrealGeometry) (hg : Constructed g) :
    g.flags = derivedFlags g.bbox ∧
    flagsContains g.flags HAS_Z = false ∧
    flagsContains g.flags HAS_M = false ∧
    flagsContains g.flags IS_EMPTY = false ∧
    flagsContains g.flags HAS_SRID = true ∧
    (flagsContains g.flags HAS_BBOX = true ↔ g.bbox.isSome = true) := by
  have key : g.flags = derivedFlags g.bbox := by
    cases hg with
    | point x y srid g h =>
      obtain ⟨c, _, rfl⟩ := point_ok h
      rfl
    | lineString coords srid g h =>
      obtain ⟨_, rfl⟩ := line_string_ok h
      rfl
    | polygon exterior holes srid g h =>
      obtain ⟨_, rfl⟩ := polygon_ok h
      rfl
    | multiPoint coords srid g h =>
      obtain ⟨_, rfl⟩ := multi_point_ok h
      rfl
    | multiLineString lines srid g h =>
      obtain ⟨_, _, rfl⟩ := multi_line_string_ok h
      rfl
    | multiPolygon polygons srid g h =>
      obtain ⟨_, _, rfl⟩ := multi_polygon_ok h
      rfl
    | geometryCollection geoms srid g hchildren h =>
      obtain ⟨_, rfl⟩ := geometry_collection_ok h
      rfl
  rw [key]
  unfold derivedFlags
  by_cases hb : g.bbox.isSome
  · rw [if_pos hb]
    exact ⟨rfl, by decide, by decide, by decide, by decide,
      ⟨fun _ => hb, fun _ => by decide⟩⟩
  · rw [if_neg hb]
    refine ⟨rfl, by decide, by decide, by decide, by decide,
      ⟨fun h => absurd h (by decide), fun h => absurd h (by simpa using hb)⟩⟩

/-- Witness for `constructor_flags_spec` at a concrete Point geometry. -/
theorem constructor_flags_spec_witness :
    Constructed (.mk (.point ⟨1, 2, none, none⟩) 4326
      (some ⟨1, 2, 1, 2⟩) 24) ∧
    ((SurrealGeometry.mk (.point ⟨1, 2, none, none⟩) 4326
        (some ⟨1, 2, 1, 2⟩) 24).flags =
      derivedFlags (SurrealGeometry.mk (.point ⟨1, 2, none, none⟩) 4326
        (some ⟨1, 2, 1, 2⟩) 24).bbox ∧
     flagsContains (SurrealGeometry.mk (.point ⟨1, 2, none, none⟩) 4326
        (some ⟨1, 2, 1, 2⟩) 24).flags HAS_Z = false ∧
     flagsContains (SurrealGeometry.mk (.point ⟨1, 2, none, none⟩) 4326
        (some ⟨1, 2, 1, 2⟩) 24).flags HAS_M = false ∧
     flagsContains (SurrealGeometry.mk (.point ⟨1, 2, none, none⟩) 4326
        (some ⟨1, 2, 1, 2⟩) 24).flags IS_EMPTY = false ∧
     flagsContains (SurrealGeometry.mk (.point ⟨1, 2, none, none⟩) 4326
        (some ⟨1, 2, 1, 2⟩) 24).flags HAS_SRID = true ∧
     (flagsContains (SurrealGeometry.mk (.point ⟨1, 2, none, none⟩) 4326
        (some ⟨1, 2, 1, 2⟩) 24).flags HAS_BBOX = true ↔
      (SurrealGeometry.mk (.point ⟨1, 2, none, none⟩) 4326
        (some ⟨1, 2, 1, 2⟩) 24).bbox.isSome = true)) := by
  have hcon : Constructed (.mk (.point ⟨1, 2, none, none⟩) 4326
      (some ⟨1, 2, 1, 2⟩) 24) :=
    Constructed.point (.fin 1) (.fin 2) 4326 _ (by with_unfolding_all rfl)
  exact ⟨hcon, constructor_flags_spec _ hcon⟩

/-- Witness for `validate_ring_epsilon_spec` at a concrete closed ring. -/
theorem validate_ring_epsilon_spec_witness :
    ([⟨0, 0, none, none⟩, ⟨1, 0, none, none⟩, ⟨1, 1, none, none⟩,
      ⟨0, 0, none, none⟩] : List Coordinate).head? = some ⟨0, 0, none, none⟩ ∧
    ([⟨0, 0, none, none⟩, ⟨1, 0, none, none⟩, ⟨1, 1, none, none⟩,
      ⟨0, 0, none, none⟩] : List Coordinate).getLast? = some ⟨0, 0, none, none⟩ ∧
    ((validate_ring
        [⟨0, 0, none, none⟩, ⟨1, 0, none, none⟩, ⟨1, 1, none, none⟩,
         ⟨0, 0, none, none⟩] = .ok () ↔
      4 ≤ ([⟨0, 0, none, none⟩, ⟨1, 0, none, none⟩, ⟨1, 1, none, none⟩,
            ⟨0, 0, none, none⟩] : List Coordinate).length ∧
      |(⟨0, 0, none, none⟩ : Coordinate).x - (⟨0, 0, none, none⟩ : Coordinate).x| ≤ f64EPSILON ∧
      |(⟨0, 0, none, none⟩ : Coordinate).y - (⟨0, 0, none, none⟩ : Coordinate).y| ≤ f64EPSILON) ∧
     (4 ≤ ([⟨0, 0, none, none⟩, ⟨1, 0, none, none⟩, ⟨1, 1, none, none⟩,
            ⟨0, 0, none, none⟩] : List Coordinate).length →
      (⟨0, 0, none, none⟩ : Coordinate) = ⟨0, 0, none, none⟩ →
      validate_ring
        [⟨0, 0, none, none⟩, ⟨1, 0, none, none⟩, ⟨1, 1, none, none⟩,
         ⟨0, 0, none, none⟩] = .ok ())) :=
  ⟨rfl, rfl, validate_ring_epsilon_spec _ _ _ rfl rfl⟩

/-- C4: for every index state, query point and non-negative finite distance
`d`, `query_within_distance` returns exactly the ids of entries whose
envelope's linear (square-rooted) Euclidean distance to the point is at most
`d` — the caller passes the linear distance, the squaring (`d * d`) is
internal — and the boundary is closed: an entry at squared distance exactly
`d * d` is included. -/
theorem query_within_distance_spec (t : List IndexedGeometry) (px py d : ℚ)
    (hd : 0 ≤ d) :
    (∀ id, id ∈ query_within_distance t px py d ↔
      ∃ e ∈ t, e.id = id ∧ Real.sqrt ((e.distance_2 px py : ℚ) : ℝ) ≤ (d : ℝ)) ∧
    (∀ e ∈ t, e.distance_2 px py = d * d →
      e.id ∈ query_within_distance t px py d) := by
  have hd' : (0 : ℝ) ≤ (d : ℝ) := by exact_mod_cast hd
  have hkey : ∀ e : IndexedGeometry,
      Real.sqrt ((e.distance_2 px py : ℚ) : ℝ) ≤ (d : ℝ) ↔
        e.distance_2 px py ≤ d * d := by
    intro e
    rw [Real.sqrt_le_iff, and_iff_right hd',
      show ((d : ℝ)) ^ 2 = ((d * d : ℚ) : ℝ) by push_cast; ring, Rat.cast_le]
  constructor
  · intro id
    simp only [query_within_distance, List.mem_map, List.mem_filter,
      decide_eq_true_eq]
    constructor
    · rintro ⟨e, ⟨he, hle⟩, rfl⟩
      exact ⟨e, he, rfl, (hkey e).mpr hle⟩
    · rintro ⟨e, he, rfl, hs⟩
      exact ⟨e, ⟨he, (hkey e).mp hs⟩, rfl⟩
  · intro e he heq
    simp only [query_within_distance, List.mem_map, List.mem_filter,
      decide_eq_true_eq]
    exact ⟨e, ⟨he, le_of_eq heq⟩, rfl⟩

/-- Witness for `query_within_distance_spec`: a single entry whose envelope
is the point (3,0), queried from the origin with radius 3 (exactly the
boundary). -/
theorem query_within_distance_spec_witness :
    (0 : ℚ) ≤ 3 ∧
    ((∀ id, id ∈ query_within_distance [⟨7, 3, 0, 3, 0⟩] 0 0 3 ↔
      ∃ e ∈ [(⟨7, 3, 0, 3, 0⟩ : IndexedGeometry)], e.id = id ∧
        Real.sqrt ((e.distance_2 0 0 : ℚ) : ℝ) ≤ ((3 : ℚ) : ℝ)) ∧
     (∀ e ∈ [(⟨7, 3, 0, 3, 0⟩ : IndexedGeometry)], e.distance_2 0 0 = 3 * 3 →
      e.id ∈ query_within_distance [⟨7, 3, 0, 3, 0⟩] 0 0 3)) :=
  ⟨by with_unfolding_all decide,
   query_within_distance_spec [⟨7, 3, 0, 3, 0⟩] 0 0 3 (by with_unfolding_all decide)⟩

/-- C5: for every index state, query point and `k`, `query_nearest` returns
the `k` closest entries by point-to-envelope Euclidean distance in ascending
order (both on the stored squared distances and on their square roots, the
linear distances the source returns), with correct per-entry distances; it
returns `min k len` pairs — fewer than `k` when the index holds fewer
entries, and `[]` on an empty index — and the returned entries dominate all
non-returned entries in distance. -/
theorem query_nearest_spec (t : List IndexedGeometry) (px py : ℚ) (k : ℕ) :
    (query_nearest t px py k).length = min k t.length ∧
    query_nearest [] px py k = [] ∧
    List.Pairwise (fun a b => a.2 ≤ b.2) (query_nearest t px py k) ∧
    List.Pairwise (fun a b : ℕ × ℚ =>
      Real.sqrt ((a.2 : ℚ) : ℝ) ≤ Real.sqrt ((b.2 : ℚ) : ℝ))
      (query_nearest t px py k) ∧
    (∀ x ∈ query_nearest t px py k,
      ∃ e ∈ t, e.id = x.1 ∧ e.distance_2 px py = x.2) ∧
    ∃ chosen rest, t.Perm (chosen ++ rest) ∧
      query_nearest t px py k =
        chosen.map (fun e => (e.id, e.distance_2 px py)) ∧
      chosen.length = min k t.length ∧
      ∀ a ∈ chosen, ∀ b ∈ rest,
        a.distance_2 px py ≤ b.distance_2 px py := by
  haveI instTotal : IsTotal IndexedGeometry (fun a b => distLe px py a b) :=
    ⟨fun a b => by
      simp only [distLe, decide_eq_true_eq]
      exact le_total _ _⟩
  haveI instTrans : IsTrans IndexedGeometry (fun a b => distLe px py a b) :=
    ⟨fun a b c => by
      simp only [distLe, decide_eq_true_eq]
      exact le_trans⟩
  have hperm := List.perm_insertionSort (fun a b => distLe px py a b) t
  have hsorted := List.sorted_insertionSort (fun a b => distLe px py a b) t
  have htake : List.Pairwise (fun a b => distLe px py a b)
      ((sortByDist px py t).take k) :=
    List.Pairwise.sublist (List.take_sublist k _) hsorted
  have hlen : (query_nearest t px py k).length = min k t.length := by
    simp [query_nearest, List.length_take, sortByDist, hperm.length_eq]
  refine ⟨hlen, by simp [query_nearest, sortByDist, List.insertionSort], ?_, ?_, ?_, ?_⟩
  · rw [query_nearest, List.pairwise_map]
    exact htake.imp (fun h => by simpa [distLe] using h)
  · rw [query_nearest, List.pairwise_map]
    refine htake.imp (fun h => ?_)
    simp only [distLe, decide_eq_true_eq] at h
    exact Real.sqrt_le_sqrt (by exact_mod_cast h)
  · intro x hx
    rw [query_nearest, List.mem_map] at hx
    obtain ⟨e, he, rfl⟩ := hx
    have het : e ∈ t := hperm.subset ((List.take_sublist k _).subset he)
    exact ⟨e, het, rfl, rfl⟩
  · refine ⟨(sortByDist px py t).take k, (sortByDist px py t).drop k, ?_, rfl, ?_, ?_⟩
    · rw [List.take_append_drop]
      exact hperm.symm
    · simp [List.length_take, sortByDist, hperm.length_eq]
    · have hsplit : List.Pairwise (fun a b => distLe px py a b = true)
          ((sortByDist px py t).take k ++ (sortByDist px py t).drop k) := by
        rw [List.take_append_drop k (sortByDist px py t)]
        exact hsorted
      have hall := (List.pairwise_append.mp hsplit).2.2
      intro a ha b hb
      have hr := hall a ha b hb
      simpa [distLe] using hr

/-- C6 counterexample: in an index holding two entries with the same id 0,
a successful `remove 0` (returning true, length decremented by one) does NOT
make id 0 absent from subsequent `query_bbox` results — the other entry with
id 0 is still there.  Such a state is reachable because `insert` never
rejects duplicate ids. -/
theorem remove_duplicate_id_counterexample :
    (rtreeRemove [⟨0, 3, 0, 3, 0⟩, ⟨0, 5, 0, 5, 0⟩] 0).2 = true ∧
    rtreeLen (rtreeRemove [⟨0, 3, 0, 3, 0⟩, ⟨0, 5, 0, 5, 0⟩] 0).1 + 1 =
      rtreeLen [⟨0, 3, 0, 3, 0⟩, ⟨0, 5, 0, 5, 0⟩] ∧
    0 ∈ query_bbox (rtreeRemove [⟨0, 3, 0, 3, 0⟩, ⟨0, 5, 0, 5, 0⟩] 0).1
      ⟨0, 0, 100, 100⟩ := by
  with_unfolding_all decide

/-- Helper: when a list has at most one element satisfying `p`, removing the
first match with `eraseP` leaves no matching element. -/
theorem eraseP_no_match {α : Type} (p : α → Bool) (l : List α)
    (h1 : (l.filter p).length ≤ 1) : ∀ e ∈ l.eraseP p, p e = false := by
  induction l with
  | nil => intro e he; simp [List.eraseP_nil] at he
  | cons a tl ih =>
    by_cases hpa : p a = true
    · intro e he
      simp only [List.eraseP_cons, hpa, cond_true] at he
      have hnil : tl.filter p = [] := by
        rw [List.filter_cons_of_pos hpa] at h1
        simp only [List.length_cons] at h1
        have hz : (tl.filter p).length = 0 := by omega
        exact List.length_eq_zero.mp hz
      have hno : ∀ x ∈ tl, ¬ p x = true := List.filter_eq_nil_iff.mp hnil
      simpa using hno e he
    · have hpa2 : p a = false := by simpa using hpa
      intro e he
      simp only [List.eraseP_cons, hpa2, cond_false] at he
      rcases List.mem_cons.mp he with rfl | he2
      · exact hpa2
      · have h2 : (tl.filter p).length ≤ 1 := by
          rwa [List.filter_cons_of_neg (by simp [hpa2])] at h1
        exact ih h2 e he2

/-- Helper: erasing the first `p`-match from a list with at least one match
drops the count of matching elements by exactly one. -/
theorem filter_eraseP_length {α : Type} (p : α → Bool) : ∀ l : List α,
    (∃ e ∈ l, p e = true) →
    ((l.eraseP p).filter p).length + 1 = (l.filter p).length := by
  intro l
  induction l with
  | nil =>
    rintro ⟨e, he, _⟩
    cases he
  | cons a tl ih =>
    rintro ⟨e, he, hpe⟩
    by_cases hpa : p a = true
    · simp only [List.eraseP_cons, hpa, cond_true, List.filter_cons_of_pos hpa,
        List.length_cons]
    · have hpa2 : p a = false := by simpa using hpa
      simp only [List.eraseP_cons, hpa2, cond_false]
      rw [show List.filter p (a :: List.eraseP p tl) =
            List.filter p (List.eraseP p tl) from by simp [hpa2],
          show List.filter p (a :: tl) = List.filter p tl from by simp [hpa2]]
      refine ih ⟨e, ?_, hpe⟩
      rcases List.mem_cons.mp he with rfl | he2
      · exact absurd hpe (by simp [hpa2])
      · exact he2

/-- C6 amended: unconditionally, `remove id` returns true iff an entry with
that id is present, returns false leaving the index unchanged otherwise, and
a successful removal decrements the length by exactly one and removes exactly
one entry with that id; provided the index holds at most one entry with that
id (e.g. ids are unique — `insert` does not enforce this), a successful
removal additionally makes the id absent from all subsequent bbox / k-NN /
within-distance query results. -/
theorem remove_spec_unique_ids (t : List IndexedGeometry) (id : ℕ) :
    ((rtreeRemove t id).2 = true ↔ ∃ e ∈ t, e.id = id) ∧
    ((rtreeRemove t id).2 = false → (rtreeRemove t id).1 = t) ∧
    ((rtreeRemove t id).2 = true →
      rtreeLen (rtreeRemove t id).1 + 1 = rtreeLen t ∧
      ((rtreeRemove t id).1.filter (fun e => e.id == id)).length + 1 =
        (t.filter (fun e => e.id == id)).length) ∧
    ((t.filter (fun e => e.id == id)).length ≤ 1 →
      (rtreeRemove t id).2 = true →
      (∀ q, id ∉ query_bbox (rtreeRemove t id).1 q) ∧
      (∀ px py k, id ∉ (query_nearest (rtreeRemove t id).1 px py k).map Prod.fst) ∧
      (∀ px py d, id ∉ query_within_distance (rtreeRemove t id).1 px py d)) := by
  rcases hfind : t.find? (fun e => e.id == id) with _ | e
  · have hnone : ∀ e ∈ t, e.id ≠ id := by
      intro e he
      have hne := List.find?_eq_none.mp hfind e he
      simpa using hne
    have hres : rtreeRemove t id = (t, false) := by
      rw [rtreeRemove, hfind]
    rw [hres]
    exact ⟨⟨fun h => by simp at h, fun ⟨e, he, heq⟩ => absurd heq (hnone e he)⟩,
      fun _ => rfl, fun h => by simp at h, fun _ h => by simp at h⟩
  · have hmem : e ∈ t := List.mem_of_find?_eq_some hfind
    have hid : e.id = id := by simpa using List.find?_some hfind
    have hres : rtreeRemove t id = (t.eraseP (fun e => e.id == id), true) := by
      rw [rtreeRemove, hfind]
    rw [hres]
    refine ⟨⟨fun _ => ⟨e, hmem, hid⟩, fun _ => rfl⟩, fun h => by simp at h,
      fun _ => ⟨?_, ?_⟩, ?_⟩
    · have hlen : (t.eraseP (fun e => e.id == id)).length = t.length - 1 :=
        List.length_eraseP_of_mem hmem (by simpa using hid)
      have hpos : 0 < t.length := List.length_pos.mpr (by rintro rfl; simp at hmem)
      simp only [rtreeLen, hlen]
      omega
    · exact filter_eraseP_length (fun e => e.id == id) t
        ⟨e, hmem, by simpa using hid⟩
    · intro huniq _
      have herase2 : ∀ x ∈ t.eraseP (fun e => e.id == id), x.id ≠ id := by
        intro x hx
        have hx2 := eraseP_no_match (fun e => e.id == id) t huniq x hx
        simpa using hx2
      refine ⟨?_, ?_, ?_⟩
      · intro q hq
        simp only [query_bbox, List.mem_map, List.mem_filter] at hq
        obtain ⟨x, ⟨hx, _⟩, hxid⟩ := hq
        exact herase2 x hx hxid
      · intro px py k hk
        simp only [List.map_map, List.mem_map] at hk
        obtain ⟨x, hx, hxid⟩ := hk
        rw [query_nearest, List.mem_map] at hx
        obtain ⟨en, hen, rfl⟩ := hx
        have hperm := List.perm_insertionSort
          (fun a b => distLe px py a b) (t.eraseP (fun e => e.id == id))
        have hent : en ∈ t.eraseP (fun e => e.id == id) :=
          hperm.subset ((List.take_sublist k _).subset hen)
        exact herase2 en hent hxid
      · intro px py d hd
        simp only [query_within_distance, List.mem_map, List.mem_filter] at hd
        obtain ⟨x, ⟨hx, _⟩, hxid⟩ := hd
        exact herase2 x hx hxid

/-- Witness for `remove_spec_unique_ids` on a two-entry index with distinct
ids, exercising the unique-id proviso of the query-absence conjunct. -/
theorem remove_spec_unique_ids_witness :
    ((rtreeRemove [⟨5, 0, 0, 1, 1⟩, ⟨9, 2, 2, 3, 3⟩] 5).2 = true ↔
      ∃ e ∈ [(⟨5, 0, 0, 1, 1⟩ : IndexedGeometry), ⟨9, 2, 2, 3, 3⟩], e.id = 5) ∧
    ((rtreeRemove [⟨5, 0, 0, 1, 1⟩, ⟨9, 2, 2, 3, 3⟩] 5).2 = false →
      (rtreeRemove [⟨5, 0, 0, 1, 1⟩, ⟨9, 2, 2, 3, 3⟩] 5).1 =
        [⟨5, 0, 0, 1, 1⟩, ⟨9, 2, 2, 3, 3⟩]) ∧
    ((rtreeRemove [⟨5, 0, 0, 1, 1⟩, ⟨9, 2, 2, 3, 3⟩] 5).2 = true →
      rtreeLen (rtreeRemove [⟨5, 0, 0, 1, 1⟩, ⟨9, 2, 2, 3, 3⟩] 5).1 + 1 =
        rtreeLen [⟨5, 0, 0, 1, 1⟩, ⟨9, 2, 2, 3, 3⟩] ∧
      ((rtreeRemove [⟨5, 0, 0, 1, 1⟩, ⟨9, 2, 2, 3, 3⟩] 5).1.filter
          (fun e => e.id == 5)).length + 1 =
        (([⟨5, 0, 0, 1, 1⟩, ⟨9, 2, 2, 3, 3⟩] : List IndexedGeometry).filter
          (fun e => e.id == 5)).length) ∧
    ((([⟨5, 0, 0, 1, 1⟩, ⟨9, 2, 2, 3, 3⟩] : List IndexedGeometry).filter
        (fun e => e.id == 5)).length ≤ 1 →
      (rtreeRemove [⟨5, 0, 0, 1, 1⟩, ⟨9, 2, 2, 3, 3⟩] 5).2 = true →
      (∀ q, 5 ∉ query_bbox (rtreeRemove [⟨5, 0, 0, 1, 1⟩, ⟨9, 2, 2, 3, 3⟩] 5).1 q) ∧
      (∀ px py k, 5 ∉ (query_nearest
        (rtreeRemove [⟨5, 0, 0, 1, 1⟩, ⟨9, 2, 2, 3, 3⟩] 5).1 px py k).map Prod.fst) ∧
      (∀ px py d, 5 ∉ query_within_distance
        (rtreeRemove [⟨5, 0, 0, 1, 1⟩, ⟨9, 2, 2, 3, 3⟩] 5).1 px py d)) :=
  remove_spec_unique_ids [⟨5, 0, 0, 1, 1⟩, ⟨9, 2, 2, 3, 3⟩] 5

theorem validate_linestring_ok {coords : List Coordinate}
    (h : validate_linestring coords = .ok ()) : 2 ≤ coords.length := by
  unfold validate_linestring at h
  by_cases hl : coords.length < 2
  · rw [if_pos hl] at h; cases h
  · omega

theorem validate_ring_ok_length {ring : List Coordinate}
    (h : validate_ring ring = .ok ()) : 4 ≤ ring.length := by
  unfold validate_ring at h
  by_cases hl : ring.length < 4
  · rw [if_pos hl] at h; cases h
  · omega

theorem validate_polygon_ok_ring {exterior : List Coordinate}
    {holes : List (List Coordinate)}
    (h : validate_polygon exterior holes = .ok ()) :
    validate_ring exterior = .ok () := by
  unfold validate_polygon at h
  cases hv : validate_ring exterior with
  | error e => rw [hv] at h; simp [Bind.bind, Except.bind] at h
  | ok u => cases u; rfl

theorem validate_lines_ok {lines : List (List Coordinate)}
    (h : validate_lines lines = .ok ()) :
    ∀ l ∈ lines, validate_linestring l = .ok () := by
  induction lines with
  | nil => intro l hl; cases hl
  | cons line rest ih =>
    intro l hl
    unfold validate_lines at h
    cases hv : validate_linestring line with
    | error e => rw [hv] at h; simp [Bind.bind, Except.bind] at h
    | ok u =>
      cases u
      rw [hv] at h
      simp only [Bind.bind, Except.bind] at h
      rcases List.mem_cons.mp hl with rfl | hl2
      · exact hv
      · exact ih h l hl2

theorem validate_polygons_ok {polygons : List PolygonData}
    (h : validate_polygons polygons = .ok ()) :
    ∀ p ∈ polygons, validate_polygon p.exterior p.holes = .ok () := by
  induction polygons with
  | nil => intro p hp; cases hp
  | cons poly rest ih =>
    intro p hp
    unfold validate_polygons at h
    cases hv : validate_polygon poly.exterior poly.holes with
    | error e => rw [hv] at h; simp [Bind.bind, Except.bind] at h
    | ok u =>
      cases u
      rw [hv] at h
      simp only [Bind.bind, Except.bind] at h
      rcases List.mem_cons.mp hp with rfl | hp2
      · exact hv
      · exact ih h p hp2

theorem expand_assoc (a b c : BoundingBox) :
    (a.expand b).expand c = a.expand (b.expand c) := by
  simp [BoundingBox.expand, min_assoc, max_assoc]

theorem boxFold_some (ys : List Coordinate) (b : BoundingBox) :
    ys.foldl
      (fun acc c =>
        match acc with
        | none => some (coordBBox c)
        | some bb => some (bb.expand (coordBBox c)))
      (some b) =
    some (ys.foldl (fun bb c => bb.expand (coordBBox c)) b) := by
  induction ys generalizing b with
  | nil => rfl
  | cons y ys ih => simp only [List.foldl_cons]; exact ih _

theorem specBBoxUnion_cons (c : Coordinate) (tl : List Coordinate) :
    specBBoxUnion (c :: tl) =
      some (tl.foldl (fun bb c2 => bb.expand (coordBBox c2)) (coordBBox c)) := by
  unfold specBBoxUnion
  simp only [List.foldl_cons]
  exact boxFold_some tl (coordBBox c)

theorem specBBoxUnion_eq_none {cs : List Coordinate} :
    specBBoxUnion cs = none ↔ cs = [] := by
  cases cs with
  | nil => simp [specBBoxUnion]
  | cons c tl => simp [specBBoxUnion_cons]

theorem boxFold_expand (a : BoundingBox) (ys : List Coordinate) (b : BoundingBox) :
    ys.foldl (fun bb c => bb.expand (coordBBox c)) (a.expand b) =
      a.expand (ys.foldl (fun bb c => bb.expand (coordBBox c)) b) := by
  induction ys generalizing b with
  | nil => rfl
  | cons y ys ih =>
    simp only [List.foldl_cons]
    rw [expand_assoc]
    exact ih _

theorem specBBoxUnion_append_some {xs ys : List Coordinate} {a b : BoundingBox}
    (hx : specBBoxUnion xs = some a) (hy : specBBoxUnion ys = some b) :
    specBBoxUnion (xs ++ ys) = some (a.expand b) := by
  cases xs with
  | nil => cases hx
  | cons x xs2 =>
    cases ys with
    | nil => cases hy
    | cons y ys2 =>
      rw [specBBoxUnion_cons] at hx
      rw [specBBoxUnion_cons] at hy
      simp only [Option.some.injEq] at hx hy
      rw [List.cons_append, specBBoxUnion_cons, List.foldl_append, hx]
      simp only [List.foldl_cons]
      rw [boxFold_expand, hy]

theorem foldl_min_init (f : Coordinate → ℚ) (cs : List Coordinate) (a b : ℚ) :
    cs.foldl (fun m c => min m (f c)) (min a b) =
      min a (cs.foldl (fun m c => min m (f c)) b) := by
  induction cs generalizing b with
  | nil => rfl
  | cons c tl ih =>
    simp only [List.foldl_cons]
    rw [min_assoc, ih]

theorem foldl_max_init (f : Coordinate → ℚ) (cs : List Coordinate) (a b : ℚ) :
    cs.foldl (fun m c => max m (f c)) (max a b) =
      max a (cs.foldl (fun m c => max m (f c)) b) := by
  induction cs generalizing b with
  | nil => rfl
  | cons c tl ih =>
    simp only [List.foldl_cons]
    rw [max_assoc, ih]

theorem boxFold_components (tl : List Coordinate) (b : BoundingBox) :
    tl.foldl (fun bb c => bb.expand (coordBBox c)) b =
      { min_x := tl.foldl (fun m c => min m c.x) b.min_x
        min_y := tl.foldl (fun m c => min m c.y) b.min_y
        max_x := tl.foldl (fun m c => max m c.x) b.max_x
        max_y := tl.foldl (fun m c => max m c.y) b.max_y } := by
  induction tl generalizing b with
  | nil => rfl
  | cons c tl ih =>
    simp only [List.foldl_cons]
    rw [ih]
    rfl

theorem from_coordinates_eq_specUnion (cs : List Coordinate)
    (h : ∀ c ∈ cs, boundedCoord c) :
    BoundingBox.from_coordinates cs = specBBoxUnion cs := by
  cases cs with
  | nil => rfl
  | cons c tl =>
    have hc : boundedCoord c := h c (List.mem_cons_self c tl)
    obtain ⟨h1, h2, h3, h4⟩ := hc
    rw [specBBoxUnion_cons, boxFold_components]
    unfold BoundingBox.from_coordinates
    simp only [List.isEmpty_cons, if_false, List.foldl_cons, Option.some.injEq]
    have e1 : min f64MAX c.x = min c.x f64MAX := min_comm _ _
    have e2 : min c.x f64MAX = c.x := min_eq_left h2
    have e3 : max f64MIN c.x = max c.x f64MIN := max_comm _ _
    have e4 : max c.x f64MIN = c.x := max_eq_left (by unfold f64MIN; linarith)
    have e5 : min f64MAX c.y = c.y := by rw [min_comm]; exact min_eq_left h4
    have e6 : max f64MIN c.y = c.y := by
      rw [max_comm]
      exact max_eq_left (by unfold f64MIN; linarith)
    rw [e1, e2, e3, e4, e5, e6]
    simp [coordBBox]

theorem extLeafCoordsOfList_cons (g : SurrealGeometry) (rest : List SurrealGeometry) :
    extLeafCoordsOfList (g :: rest) =
      g.geometry_type.extLeafCoords ++ extLeafCoordsOfList rest := by
  cases g
  rfl

theorem mem_extLeafCoordsOfList {geoms : List SurrealGeometry}
    {child : SurrealGeometry} {c : Coordinate} (hc : child ∈ geoms)
    (hcc : c ∈ child.geometry_type.extLeafCoords) :
    c ∈ extLeafCoordsOfList geoms := by
  induction geoms with
  | nil => cases hc
  | cons g gs ih =>
    rw [extLeafCoordsOfList_cons, List.mem_append]
    rcases List.mem_cons.mp hc with rfl | hc2
    · exact Or.inl hcc
    · exact Or.inr (ih hc2)

theorem fold_children_go (geoms : List SurrealGeometry) (pre : List Coordinate)
    (h : ∀ g ∈ geoms, g.bbox = specBBoxUnion g.geometry_type.extLeafCoords ∧
      g.geometry_type.extLeafCoords ≠ []) :
    geoms.foldl
      (fun acc g =>
        match acc, g.bbox with
        | none, some b => some b
        | some a, some b => some (a.expand b)
        | a, none => a)
      (specBBoxUnion pre) =
    specBBoxUnion (pre ++ extLeafCoordsOfList geoms) := by
  induction geoms generalizing pre with
  | nil => simp [extLeafCoordsOfList]
  | cons g gs ih =>
    obtain ⟨hg1, hg2⟩ := h g (List.mem_cons_self g gs)
    obtain ⟨bg, hbg⟩ : ∃ bg, specBBoxUnion g.geometry_type.extLeafCoords = some bg := by
      cases hsp : specBBoxUnion g.geometry_type.extLeafCoords with
      | none => exact absurd (specBBoxUnion_eq_none.mp hsp) hg2
      | some bb => exact ⟨bb, rfl⟩
    have hstep :
        (match specBBoxUnion pre, g.bbox with
          | none, some b => some b
          | some a, some b => some (a.expand b)
          | a, none => (a : Option BoundingBox)) =
        specBBoxUnion (pre ++ g.geometry_type.extLeafCoords) := by
      rw [hg1, hbg]
      cases hpre : specBBoxUnion pre with
      | none =>
        have hpe : pre = [] := specBBoxUnion_eq_none.mp hpre
        subst hpe
        simpa using hbg.symm
      | some a =>
        exact (specBBoxUnion_append_some hpre hbg).symm
    rw [List.foldl_cons, hstep, ih (pre ++ g.geometry_type.extLeafCoords)
      (fun g2 hg2m => h g2 (List.mem_cons_of_mem g hg2m)),
      extLeafCoordsOfList_cons, List.append_assoc]

theorem fold_children_spec (geoms : List SurrealGeometry)
    (h : ∀ g ∈ geoms, g.bbox = specBBoxUnion g.geometry_type.extLeafCoords ∧
      g.geometry_type.extLeafCoords ≠ []) :
    foldChildBBoxes geoms = specBBoxUnion (extLeafCoordsOfList geoms) := by
  have hgo := fold_children_go geoms [] h
  simpa [foldChildBBoxes, specBBoxUnion] using hgo

/-- The bbox invariant, by induction over construction: the cached bbox is
the spec-side union of the exterior-only leaf coordinates, and that leaf list
is never empty. -/
theorem bbox_spec_aux (g : SurrealGeometry) (hg : Constructed g) :
    (∀ c ∈ g.geometry_type.extLeafCoords, boundedCoord c) →
    g.bbox = specBBoxUnion g.geometry_type.extLeafCoords ∧
    g.geometry_type.extLeafCoords ≠ [] := by
  induction hg with
  | point x y srid g h =>
    obtain ⟨c, hc, rfl⟩ := point_ok h
    simp only [SurrealGeometry.bbox, SurrealGeometry.geometry_type,
      GeometryType.extLeafCoords]
    intro hb
    exact ⟨from_coordinates_eq_specUnion [c] hb, by simp⟩
  | lineString coords srid g h =>
    obtain ⟨hv, rfl⟩ := line_string_ok h
    simp only [SurrealGeometry.bbox, SurrealGeometry.geometry_type,
      GeometryType.extLeafCoords]
    intro hb
    have hlen := validate_linestring_ok hv
    exact ⟨from_coordinates_eq_specUnion coords hb,
      by intro hcontra; subst hcontra; simp at hlen⟩
  | polygon exterior holes srid g h =>
    obtain ⟨hv, rfl⟩ := polygon_ok h
    simp only [SurrealGeometry.bbox, SurrealGeometry.geometry_type,
      GeometryType.extLeafCoords]
    intro hb
    have hlen := validate_ring_ok_length (validate_polygon_ok_ring hv)
    exact ⟨from_coordinates_eq_specUnion exterior hb,
      by intro hcontra; subst hcontra; simp at hlen⟩
  | multiPoint coords srid g h =>
    obtain ⟨hne, rfl⟩ := multi_point_ok h
    simp only [SurrealGeometry.bbox, SurrealGeometry.geometry_type,
      GeometryType.extLeafCoords]
    intro hb
    exact ⟨from_coordinates_eq_specUnion coords hb, hne⟩
  | multiLineString lines srid g h =>
    obtain ⟨hne, hv, rfl⟩ := multi_line_string_ok h
    simp only [SurrealGeometry.bbox, SurrealGeometry.geometry_type,
      GeometryType.extLeafCoords]
    intro hb
    refine ⟨from_coordinates_eq_specUnion lines.flatten hb, ?_⟩
    cases lines with
    | nil => exact absurd rfl hne
    | cons line rest =>
      have hlen := validate_linestring_ok
        (validate_lines_ok hv line (List.mem_cons_self line rest))
      rw [List.flatten_cons]
      intro hcontra
      rw [List.append_eq_nil] at hcontra
      rw [hcontra.1] at hlen
      simp at hlen
  | multiPolygon polygons srid g h =>
    obtain ⟨hne, hv, rfl⟩ := multi_polygon_ok h
    simp only [SurrealGeometry.bbox, SurrealGeometry.geometry_type,
      GeometryType.extLeafCoords]
    intro hb
    refine ⟨from_coordinates_eq_specUnion _ hb, ?_⟩
    cases polygons with
    | nil => exact absurd rfl hne
    | cons poly rest =>
      have hlen := validate_ring_ok_length (validate_polygon_ok_ring
        (validate_polygons_ok hv poly (List.mem_cons_self poly rest)))
      rw [List.flatMap_cons]
      intro hcontra
      rw [List.append_eq_nil] at hcontra
      rw [hcontra.1] at hlen
      simp at hlen
  | geometryCollection geoms srid g hchildren h ih =>
    obtain ⟨hne, rfl⟩ := geometry_collection_ok h
    simp only [SurrealGeometry.bbox, SurrealGeometry.geometry_type,
      GeometryType.extLeafCoords]
    intro hb
    have hchild_spec : ∀ child ∈ geoms,
        child.bbox = specBBoxUnion child.geometry_type.extLeafCoords ∧
        child.geometry_type.extLeafCoords ≠ [] := by
      intro child hcm
      exact ih child hcm (fun c hcc => hb c (mem_extLeafCoordsOfList hcm hcc))
    refine ⟨fold_children_spec geoms hchild_spec, ?_⟩
    cases geoms with
    | nil => exact absurd rfl hne
    | cons g0 gs =>
      have hg0 := (hchild_spec g0 (List.mem_cons_self g0 gs)).2
      rw [extLeafCoordsOfList_cons]
      intro hcontra
      rw [List.append_eq_nil] at hcontra
      exact hg0 hcontra.1

/-- C1 counterexample: a validly constructed Polygon whose hole ring lies
outside its exterior ring has a cached bbox [0,1]x[0,1] that does NOT equal
the union of the bounding boxes of all of its leaf coordinates
([0,6]x[0,6] once the hole ring is included): `compute_bbox_for` and the
`polygon` constructor fold over the exterior ring only, and the validator
never checks that holes lie inside the exterior. -/
theorem polygon_hole_bbox_counterexample :
    (SurrealGeometry.polygon
      [⟨0, 0, none, none⟩, ⟨1, 0, none, none⟩, ⟨1, 1, none, none⟩,
       ⟨0, 0, none, none⟩]
      [[⟨5, 5, none, none⟩, ⟨6, 5, none, none⟩, ⟨6, 6, none, none⟩,
        ⟨5, 5, none, none⟩]] 4326).toOption.map
        (fun g => (g.bbox, specBBoxUnion g.geometry_type.leafCoords)) =
      some (some ⟨0, 0, 1, 1⟩, some ⟨0, 0, 6, 6⟩) := by
  with_unfolding_all decide

/-- C1 amended: for every validly constructed geometry whose coordinates lie
in the finite-double range, the cached bbox equals the union of the bounding
boxes of its leaf coordinates EXCLUDING polygon hole rings (exterior rings
only for Polygon / MultiPolygon), recursively through collections; the bbox
is `None` exactly when there are zero such coordinates — which never happens
for a constructed geometry, so the bbox is always present. -/
theorem bbox_eq_ext_leaf_union (g : SurrealGeometry) (hg : Constructed g)
    (hb : ∀ c ∈ g.geometry_type.extLeafCoords, boundedCoord c) :
    g.bbox = specBBoxUnion g.geometry_type.extLeafCoords ∧
    (g.bbox = none ↔ g.geometry_type.extLeafCoords = []) ∧
    g.bbox.isSome = true := by
  obtain ⟨h1, h2⟩ := bbox_spec_aux g hg hb
  refine ⟨h1, by rw [h1]; exact specBBoxUnion_eq_none, ?_⟩
  rw [h1]
  cases hsp : specBBoxUnion g.geometry_type.extLeafCoords with
  | none => exact absurd (specBBoxUnion_eq_none.mp hsp) h2
  | some b => rfl

/-- Witness for `bbox_eq_ext_leaf_union` at a concrete triangle polygon. -/
theorem bbox_eq_ext_leaf_union_witness :
    Constructed (.mk
      (.polygon
        [⟨0, 0, none, none⟩, ⟨1, 0, none, none⟩, ⟨1, 1, none, none⟩,
         ⟨0, 0, none, none⟩] [])
      4326 (some ⟨0, 0, 1, 1⟩) 24) ∧
    (∀ c ∈ (SurrealGeometry.mk
      (.polygon
        [⟨0, 0, none, none⟩, ⟨1, 0, none, none⟩, ⟨1, 1, none, none⟩,
         ⟨0, 0, none, none⟩] [])
      4326 (some ⟨0, 0, 1, 1⟩) 24).geometry_type.extLeafCoords, boundedCoord c) ∧
    ((SurrealGeometry.mk
      (.polygon
        [⟨0, 0, none, none⟩, ⟨1, 0, none, none⟩, ⟨1, 1, none, none⟩,
         ⟨0, 0, none, none⟩] [])
      4326 (some ⟨0, 0, 1, 1⟩) 24).bbox =
        specBBoxUnion (SurrealGeometry.mk
      (.polygon
        [⟨0, 0, none, none⟩, ⟨1, 0, none, none⟩, ⟨1, 1, none, none⟩,
         ⟨0, 0, none, none⟩] [])
      4326 (some ⟨0, 0, 1, 1⟩) 24).geometry_type.extLeafCoords ∧
     ((SurrealGeometry.mk
      (.polygon
        [⟨0, 0, none, none⟩, ⟨1, 0, none, none⟩, ⟨1, 1, none, none⟩,
         ⟨0, 0, none, none⟩] [])
      4326 (some ⟨0, 0, 1, 1⟩) 24).bbox = none ↔
        (SurrealGeometry.mk
      (.polygon
        [⟨0, 0, none, none⟩, ⟨1, 0, none, none⟩, ⟨1, 1, none, none⟩,
         ⟨0, 0, none, none⟩] [])
      4326 (some ⟨0, 0, 1, 1⟩) 24).geometry_type.extLeafCoords = []) ∧
     (SurrealGeometry.mk
      (.polygon
        [⟨0, 0, none, none⟩, ⟨1, 0, none, none⟩, ⟨1, 1, none, none⟩,
         ⟨0, 0, none, none⟩] [])
      4326 (some ⟨0, 0, 1, 1⟩) 24).bbox.isSome = true) := by
  have hcon : Constructed (.mk
      (.polygon
        [⟨0, 0, none, none⟩, ⟨1, 0, none, none⟩, ⟨1, 1, none, none⟩,
         ⟨0, 0, none, none⟩] [])
      4326 (some ⟨0, 0, 1, 1⟩) 24) :=
    Constructed.polygon
      [⟨0, 0, none, none⟩, ⟨1, 0, none, none⟩, ⟨1, 1, none, none⟩,
       ⟨0, 0, none, none⟩] [] 4326 _ (by with_unfolding_all rfl)
  have hbd : ∀ c ∈ (SurrealGeometry.mk
      (.polygon
        [⟨0, 0, none, none⟩, ⟨1, 0, none, none⟩, ⟨1, 1, none, none⟩,
         ⟨0, 0, none, none⟩] [])
      4326 (some ⟨0, 0, 1, 1⟩) 24).geometry_type.extLeafCoords, boundedCoord c := by
    with_unfolding_all decide
  exact ⟨hcon, hbd, bbox_eq_ext_leaf_union _ hcon hbd⟩

theorem sqDist_nonneg (p q : Pt) : 0 ≤ sqDist p q := by
  unfold sqDist
  have h1 := mul_self_nonneg (p.1 - q.1)
  have h2 := mul_self_nonneg (p.2 - q.2)
  linarith

theorem sqDist_eq_zero_iff (p q : Pt) : sqDist p q = 0 ↔ p = q := by
  unfold sqDist
  constructor
  · intro h
    have h1 := mul_self_nonneg (p.1 - q.1)
    have h2 := mul_self_nonneg (p.2 - q.2)
    have hx : (p.1 - q.1) * (p.1 - q.1) = 0 := by linarith
    have hy : (p.2 - q.2) * (p.2 - q.2) = 0 := by linarith
    have hx2 : p.1 = q.1 := by
      have := mul_self_eq_zero.mp hx
      linarith
    have hy2 : p.2 = q.2 := by
      have := mul_self_eq_zero.mp hy
      linarith
    exact Prod.ext hx2 hy2
  · rintro rfl
    ring

theorem mem_pairList {n i j : ℕ} (h : (i, j) ∈ pairList n) : i < j ∧ j < n := by
  unfold pairList at h
  rw [List.mem_flatMap] at h
  obtain ⟨a, _, hm⟩ := h
  rw [List.mem_map] at hm
  obtain ⟨b, hb, heq⟩ := hm
  rw [List.mem_filter, List.mem_range] at hb
  obtain ⟨hbn, hab⟩ := hb
  cases heq
  exact ⟨by simpa using hab, hbn⟩

theorem foldl_no_change {α β : Type} (l : List β) (f : α → β → α) (init : α)
    (h : ∀ acc, ∀ x ∈ l, f acc x = acc) : l.foldl f init = init := by
  induction l generalizing init with
  | nil => rfl
  | cons x tl ih =>
    rw [List.foldl_cons, h init x (List.mem_cons_self x tl)]
    exact ih init (fun acc y hy => h acc y (List.mem_cons_of_mem x hy))

theorem ufFind_id (fuel i : ℕ) : ufFind (fun k => k) fuel i = i := by
  cases fuel with
  | zero => rfl
  | succ m => simp [ufFind]

theorem uniqueInOrder_of_nodup {l : List ℕ} (h : l.Nodup) : uniqueInOrder l = l := by
  induction l with
  | nil => rfl
  | cons a tl ih =>
    rw [List.nodup_cons] at h
    unfold uniqueInOrder
    rw [ih h.2]
    congr 1
    rw [List.filter_eq_self]
    intro b hb
    simp only [decide_eq_true_eq]
    intro hcontra
    exact h.1 (hcontra ▸ hb)

theorem firstIdx_of_nodup {l : List ℕ} (h : l.Nodup) (i : ℕ) (hi : i < l.length) :
    firstIdx l[i] l = i := by
  induction l generalizing i with
  | nil => simp at hi
  | cons a tl ih =>
    rw [List.nodup_cons] at h
    cases i with
    | zero => simp [firstIdx]
    | succ m =>
      have hm : m < tl.length := by simpa using hi
      have hmem : tl[m] ∈ tl := List.getElem_mem hm
      have hne : a ≠ tl[m] := fun hcontra => h.1 (hcontra ▸ hmem)
      simp only [List.getElem_cons_succ, firstIdx]
      rw [if_neg hne, ih h.2 m hm]

theorem sortNat_of_sorted {l : List ℕ} (h : List.Pairwise (· ≤ ·) l) :
    sortNat l = l := by
  induction l with
  | nil => rfl
  | cons a tl ih =>
    rw [List.pairwise_cons] at h
    unfold sortNat
    rw [ih h.2]
    cases tl with
    | nil => rfl
    | cons b tl2 =>
      have hab := h.1 b (List.mem_cons_self b tl2)
      simp [insertNat, hab]

theorem map_getD_range (pts : List Pt) :
    (List.range pts.length).map (fun k => pts.getD k (0, 0)) = pts := by
  induction pts with
  | nil => rfl
  | cons p tl ih =>
    have hcomp : ((fun k => (p :: tl).getD k ((0 : ℚ), (0 : ℚ))) ∘ Nat.succ) =
        (fun k => tl.getD k (0, 0)) := funext (fun k => List.getD_cons_succ)
    rw [List.length_cons, List.range_succ_eq_map, List.map_cons, List.map_map,
      hcomp, ih]
    rfl

theorem zip_filter_singleton (pts : List Pt) :
    ∀ (off k : ℕ), k < pts.length →
    (pts.zip ((List.range pts.length).map (fun i => some (off + i)))).filterMap
      (fun pa => if pa.2 = some (off + k) then some pa.1 else none) =
      [pts.getD k (0, 0)] := by
  induction pts with
  | nil => intro off k hk; simp at hk
  | cons p tl ih =>
    intro off k hk
    rw [List.length_cons, List.range_succ_eq_map, List.map_cons, List.map_map]
    have hshift : ((fun i => some (off + i)) ∘ Nat.succ) =
        (fun i => some ((off + 1) + i)) := by
      funext i
      simp only [Function.comp]
      congr 1
      omega
    rw [hshift, List.zip_cons_cons]
    cases k with
    | zero =>
      have htail : (tl.zip ((List.range tl.length).map
          (fun i => some (off + 1 + i)))).filterMap
          (fun pa => if pa.2 = some (off + 0) then some pa.1 else none) = [] := by
        rw [List.filterMap_eq_nil_iff]
        intro pa hpa
        have hsnd := (List.of_mem_zip hpa).2
        rw [List.mem_map] at hsnd
        obtain ⟨i, _, hival⟩ := hsnd
        rw [if_neg]
        rw [← hival]
        intro hcontra
        simp only [Option.some.injEq] at hcontra
        omega
      have hhead0 : (if (some (off + 0) : Option ℕ) = some (off + 0)
          then some p else none) = some p := if_pos rfl
      rw [List.filterMap_cons]
      simp only [hhead0, htail, List.getD_cons_zero]
      simp
    | succ m =>
      have hm : m < tl.length := by simpa using hk
      have hres := ih (off + 1) m hm
      have hhead : (if (some (off + 0) : Option ℕ) = some (off + (m + 1))
          then some p else none) = none := by
        rw [if_neg]
        intro hcontra
        simp only [Option.some.injEq] at hcontra
        omega
      rw [List.filterMap_cons]
      simp only [hhead, List.getD_cons_succ]
      simp only [show off + (m + 1) = off + 1 + m from by omega]
      exact hres

theorem within_parent_zero_id (pts : List Pt) (hnd : pts.Nodup) :
    withinParent pts (EF.mul (.fin 0) (.fin 0)) = fun k => k := by
  unfold withinParent
  have hmul : EF.mul (.fin 0) (.fin 0) = .fin 0 := by
    simp [EF.mul]
  rw [hmul]
  rw [foldl_no_change _ _ _ ?_]
  · intro acc x hx
    obtain ⟨i, j⟩ := x
    obtain ⟨hij, hjn⟩ := mem_pairList hx
    have hin : i < pts.length := lt_trans hij hjn
    have hgi : pts.getD i (0, 0) = pts[i] := List.getD_eq_getElem pts (0, 0) hin
    have hgj : pts.getD j (0, 0) = pts[j] := List.getD_eq_getElem pts (0, 0) hjn
    have hne2 : pts[i] ≠ pts[j] := by
      intro hcontra
      have := (hnd.getElem_inj_iff).mp hcontra
      omega
    have hpos : 0 < sqDist (pts.getD i (0, 0)) (pts.getD j (0, 0)) := by
      rw [hgi, hgj]
      rcases lt_or_eq_of_le (sqDist_nonneg pts[i] pts[j]) with h | h
      · exact h
      · exact absurd ((sqDist_eq_zero_iff _ _).mp h.symm) hne2
    rw [if_neg]
    simp only [EF.le, decide_eq_true_eq]
    intro hcontra
    exact absurd hcontra (not_le.mpr hpos)

theorem within_zero_assignments (pts : List Pt) (hnd : pts.Nodup) :
    withinAssignments pts (EF.mul (.fin 0) (.fin 0)) =
      (List.range pts.length).map some := by
  unfold withinAssignments
  rw [within_parent_zero_id pts hnd]
  have hroots : (List.range pts.length).map
      (fun i => ufFind (fun k => k) pts.length i) = List.range pts.length := by
    rw [List.map_congr_left (fun i _ => ufFind_id pts.length i)]
    exact List.map_id _
  simp only [hroots]
  rw [uniqueInOrder_of_nodup (List.nodup_range _)]
  apply List.map_congr_left
  intro i hi
  rw [List.mem_range] at hi
  congr 1
  have hfi := firstIdx_of_nodup (List.nodup_range pts.length) i (by simpa using hi)
  rwa [List.getElem_range] at hfi

/-- C8 amended: for every non-empty input whose centroids are pairwise
distinct, `st_cluster_within` with distance exactly 0 places every input
point in its own singleton cluster, one cluster per input geometry, in input
order; inputs with equal centroids (distance 0 apart) are grouped together
instead. -/
theorem within_zero_distance_singletons (pts : List Pt) (hne : pts ≠ [])
    (hnd : pts.Nodup) :
    st_cluster_within pts (.fin 0) = .ok (pts.map (fun p => [p])) := by
  have hn : pts.length ≠ 0 := fun h => hne (List.length_eq_zero.mp h)
  unfold st_cluster_within
  rw [if_neg (by simpa [List.isEmpty_iff] using hne)]
  rw [if_neg (by simp [EF.lt])]
  rw [within_zero_assignments pts hnd]
  unfold buildClusterResult
  have hfm : ((List.range pts.length).map some).filterMap id =
      List.range pts.length := by
    simp
  rw [hfm, uniqueInOrder_of_nodup (List.nodup_range _)]
  rw [if_neg (by simp [List.isEmpty_iff, List.range_eq_nil, hn])]
  rw [sortNat_of_sorted ((List.pairwise_lt_range _).imp le_of_lt)]
  have h1 : ∀ k ∈ List.range pts.length,
      (pts.zip ((List.range pts.length).map some)).filterMap
        (fun pa => if pa.2 = some k then some pa.1 else none) =
        [pts.getD k (0, 0)] := by
    intro k hk
    rw [List.mem_range] at hk
    have hz := zip_filter_singleton pts 0 k hk
    simpa [Nat.zero_add] using hz
  rw [List.map_congr_left h1]
  have h2 : (List.range pts.length).map (fun k => [pts.getD k (0, 0)]) =
      pts.map (fun p => [p]) := by
    rw [show (fun k => [pts.getD k ((0 : ℚ), (0 : ℚ))]) =
      ((fun p => [p]) ∘ (fun k => pts.getD k (0, 0))) from rfl]
    rw [← List.map_map, map_getD_range]
  rw [h2]

/-- C8 counterexample: two input geometries with equal centroids and
distance exactly 0 are unioned into ONE cluster (their squared distance 0 is
within the threshold 0), so the result does not contain one cluster per
input geometry. -/
theorem within_zero_distance_duplicate_counterexample :
    st_cluster_within [(0, 0), (0, 0)] (.fin 0) = .ok [[(0, 0), (0, 0)]] ∧
    (st_cluster_within [(0, 0), (0, 0)] (.fin 0)).toOption.map List.length =
      some 1 := by
  constructor
  · with_unfolding_all decide
  · with_unfolding_all decide

/-- Witness for `within_zero_distance_singletons` on three distinct
points. -/
theorem within_zero_distance_singletons_witness :
    ([((0 : ℚ), (0 : ℚ)), (1, 0), (2, 0)] : List Pt) ≠ [] ∧
    ([((0 : ℚ), (0 : ℚ)), (1, 0), (2, 0)] : List Pt).Nodup ∧
    st_cluster_within [((0 : ℚ), (0 : ℚ)), (1, 0), (2, 0)] (.fin 0) =
      .ok (([((0 : ℚ), (0 : ℚ)), (1, 0), (2, 0)] : List Pt).map (fun p => [p])) := by
  refine ⟨by with_unfolding_all decide, by with_unfolding_all decide, ?_⟩
  exact within_zero_distance_singletons _ (by with_unfolding_all decide)
    (by with_unfolding_all decide)

/-- A dense (core) point: an index of the dataset whose neighborhood has at
least `minPts` members. -/
def DbDense (N : ℕ → List ℕ) (minPts n i : ℕ) : Prop :=
  i < n ∧ minPts ≤ (N i).length

/-- One density-reachability step: `b` is in the neighborhood of the dense
point `a`. -/
def DbStep (N : ℕ → List ℕ) (minPts n : ℕ) (a b : ℕ) : Prop :=
  DbDense N minPts n a ∧ b ∈ N a

/-- Density-reachability: `i` is reachable from some dense point through a
chain of dense points (the chain may be empty, so every dense point is
reachable). -/
def DbReach (N : ℕ → List ℕ) (minPts n : ℕ) (i : ℕ) : Prop :=
  ∃ a, DbDense N minPts n a ∧ Relation.ReflTransGen (DbStep N minPts n) a i

theorem expandState_assign_ne_none {cid j : ℕ} {s : DBState} {b : ℕ}
    (h : s.assign b ≠ none) : (expandState cid j s).assign b ≠ none := by
  unfold expandState
  by_cases hbj : b = j <;> simp [hbj]
  exact h

theorem expandState_assign_eq {cid j : ℕ} {s : DBState} {b : ℕ}
    (h : s.assign b ≠ none) : (expandState cid j s).assign b = s.assign b := by
  unfold expandState
  by_cases hbj : b = j
  · subst hbj
    cases hv : s.assign b with
    | none => exact absurd hv h
    | some c => simp [hv]
  · simp [hbj]

theorem expand_assign_preserve (N : ℕ → List ℕ) (minPts cid : ℕ) :
    ∀ (fuel : ℕ) (queue : List ℕ) (qi : ℕ) (s : DBState) (b : ℕ),
    s.assign b ≠ none →
    (dbscanExpand N minPts cid fuel queue qi s).assign b = s.assign b := by
  intro fuel
  induction fuel with
  | zero => intro queue qi s b h; rfl
  | succ m ih =>
    intro queue qi s b h
    rw [dbscanExpand]
    by_cases hqi : qi < queue.length
    · rw [dif_pos hqi]
      rw [ih _ _ _ b (expandState_assign_ne_none h)]
      exact expandState_assign_eq h
    · rw [dif_neg hqi]

theorem expand_visited_mono (N : ℕ → List ℕ) (minPts cid : ℕ) :
    ∀ (fuel : ℕ) (queue : List ℕ) (qi : ℕ) (s : DBState) (j : ℕ),
    s.visited j = true →
    (dbscanExpand N minPts cid fuel queue qi s).visited j = true := by
  intro fuel
  induction fuel with
  | zero => intro queue qi s j h; exact h
  | succ m ih =>
    intro queue qi s j h
    rw [dbscanExpand]
    by_cases hqi : qi < queue.length
    · rw [dif_pos hqi]
      apply ih
      show (if j = queue.get ⟨qi, hqi⟩ then true else s.visited j) = true
      by_cases hj : j = queue.get ⟨qi, hqi⟩
      · rw [if_pos hj]
      · rw [if_neg hj]
        exact h
    · rw [dif_neg hqi]
      exact h

theorem expand_sound (N : ℕ → List ℕ) (minPts n cid : ℕ)
    (hN2 : ∀ i j, j ∈ N i → j < n) :
    ∀ (fuel : ℕ) (queue : List ℕ) (qi : ℕ) (s : DBState),
    (∀ x ∈ queue, DbReach N minPts n x) →
    (∀ x ∈ queue, x < n) →
    (∀ j, s.assign j ≠ none → DbReach N minPts n j) →
    ∀ j, (dbscanExpand N minPts cid fuel queue qi s).assign j ≠ none →
    DbReach N minPts n j := by
  intro fuel
  induction fuel with
  | zero => intro queue qi s hq hqb hs j h; exact hs j h
  | succ m ih =>
    intro queue qi s hq hqb hs j h
    rw [dbscanExpand] at h
    by_cases hqi : qi < queue.length
    · rw [dif_pos hqi] at h
      have hj0mem : queue.get ⟨qi, hqi⟩ ∈ queue := List.get_mem queue qi hqi
      have hj0reach : DbReach N minPts n (queue.get ⟨qi, hqi⟩) := hq _ hj0mem
      have hj0n : queue.get ⟨qi, hqi⟩ < n := hqb _ hj0mem
      refine ih _ _ _ ?_ ?_ ?_ j h
      · intro x hx
        unfold expandQueue at hx
        by_cases hcond : (!s.visited (queue.get ⟨qi, hqi⟩) &&
            decide (minPts ≤ (N (queue.get ⟨qi, hqi⟩)).length)) = true
        · rw [if_pos hcond] at hx
          rcases List.mem_append.mp hx with hx1 | hx2
          · exact hq x hx1
          · have hxN : x ∈ N (queue.get ⟨qi, hqi⟩) := List.mem_of_mem_filter hx2
            have hdense : DbDense N minPts n (queue.get ⟨qi, hqi⟩) := by
              refine ⟨hj0n, ?_⟩
              have := (Bool.and_eq_true _ _).mp hcond
              exact of_decide_eq_true this.2
            obtain ⟨a, ha, hrtg⟩ := hj0reach
            exact ⟨a, ha, hrtg.tail ⟨hdense, hxN⟩⟩
        · rw [if_neg hcond] at hx
          exact hq x hx
      · intro x hx
        unfold expandQueue at hx
        by_cases hcond : (!s.visited (queue.get ⟨qi, hqi⟩) &&
            decide (minPts ≤ (N (queue.get ⟨qi, hqi⟩)).length)) = true
        · rw [if_pos hcond] at hx
          rcases List.mem_append.mp hx with hx1 | hx2
          · exact hqb x hx1
          · exact hN2 _ _ (List.mem_of_mem_filter hx2)
        · rw [if_neg hcond] at hx
          exact hqb x hx
      · intro jj hjj
        have hjj2 : (if jj = queue.get ⟨qi, hqi⟩
            then some ((s.assign (queue.get ⟨qi, hqi⟩)).getD cid)
            else s.assign jj) ≠ none := hjj
        by_cases hejj : jj = queue.get ⟨qi, hqi⟩
        · subst hejj
          exact hj0reach
        · rw [if_neg hejj] at hjj2
          exact hs jj hjj2
    · rw [dif_neg hqi] at h
      exact hs j h

theorem nodup_length_le {l : List ℕ} {n : ℕ} (h1 : l.Nodup)
    (h2 : ∀ x ∈ l, x < n) : l.length ≤ n := by
  have hsub : l.toFinset ⊆ Finset.range n := by
    intro x hx
    rw [List.mem_toFinset] at hx
    rw [Finset.mem_range]
    exact h2 x hx
  have := Finset.card_le_card hsub
  rwa [List.toFinset_card_of_nodup h1, Finset.card_range] at this



theorem mem_queue_assigned {queue : List ℕ} {qi : ℕ} {s : DBState}
    (hlen : queue.length ≤ qi)
    (hproc : ∀ t (h2 : t < queue.length), t < qi →
      s.assign (queue.get ⟨t, h2⟩) ≠ none) :
    ∀ x ∈ queue, s.assign x ≠ none := by
  intro x hx
  obtain ⟨⟨t, h2⟩, ht⟩ := List.mem_iff_get.mp hx
  have hr := hproc t h2 (lt_of_lt_of_le h2 hlen)
  rwa [ht] at hr

theorem expandState_assign_self (cid j : ℕ) (s : DBState) :
    (expandState cid j s).assign j ≠ none := by
  unfold expandState
  simp

theorem expandQueue_cases (N : ℕ → List ℕ) (minPts : ℕ) (queue : List ℕ)
    (j0 : ℕ) (s : DBState) :
    expandQueue N minPts queue j0 s = queue ∨
    (s.visited j0 = false ∧ minPts ≤ (N j0).length ∧
     expandQueue N minPts queue j0 s =
       queue ++ (N j0).filter (fun nb => !queue.contains nb)) := by
  unfold expandQueue
  by_cases hcond : (!s.visited j0 && decide (minPts ≤ (N j0).length)) = true
  · right
    have h2 := (Bool.and_eq_true _ _).mp hcond
    exact ⟨by simpa using h2.1, of_decide_eq_true h2.2, if_pos hcond⟩
  · left
    exact if_neg hcond

theorem mem_filter_not_contains {queue nbrs : List ℕ} {x : ℕ}
    (h : x ∈ nbrs.filter (fun nb => !queue.contains nb)) :
    x ∈ nbrs ∧ x ∉ queue := by
  rw [List.mem_filter] at h
  refine ⟨h.1, ?_⟩
  have h2 := h.2
  simp at h2
  exact h2

theorem not_mem_mem_filter {queue nbrs : List ℕ} {x : ℕ}
    (h1 : x ∈ nbrs) (h2 : x ∉ queue) :
    x ∈ nbrs.filter (fun nb => !queue.contains nb) := by
  rw [List.mem_filter]
  exact ⟨h1, by simp [h2]⟩

theorem expand_post (N : ℕ → List ℕ) (minPts n cid : ℕ)
    (hN1 : ∀ i, (N i).Nodup) (hN2 : ∀ i j, j ∈ N i → j < n) :
    ∀ (fuel : ℕ) (queue : List ℕ) (qi : ℕ) (s : DBState),
    queue.Nodup →
    (∀ x ∈ queue, x < n) →
    n + 1 ≤ fuel + qi →
    (∀ t (h2 : t < queue.length), t < qi →
      s.assign (queue.get ⟨t, h2⟩) ≠ none) →
    (∀ j, s.visited j = true → DbDense N minPts n j → ∀ b ∈ N j,
      s.assign b ≠ none ∨ b ∈ queue) →
    ∀ j, (dbscanExpand N minPts cid fuel queue qi s).visited j = true →
      DbDense N minPts n j → ∀ b ∈ N j,
      (dbscanExpand N minPts cid fuel queue qi s).assign b ≠ none := by
  intro fuel
  induction fuel with
  | zero =>
    intro queue qi s hnd hqb hfuel hproc hclos j hvis hdense b hb
    have hql : queue.length ≤ qi :=
      le_trans (nodup_length_le hnd hqb) (by omega)
    rcases hclos j hvis hdense b hb with hass | hmem
    · exact hass
    · exact mem_queue_assigned hql hproc b hmem
  | succ m ih =>
    intro queue qi s hnd hqb hfuel hproc hclos
    rw [dbscanExpand]
    by_cases hqi : qi < queue.length
    · rw [dif_pos hqi]
      have hj0mem : queue.get ⟨qi, hqi⟩ ∈ queue := List.get_mem queue qi hqi
      have hj0n : queue.get ⟨qi, hqi⟩ < n := hqb _ hj0mem
      have hqcases := expandQueue_cases N minPts queue (queue.get ⟨qi, hqi⟩) s
      have hnd2 : (expandQueue N minPts queue (queue.get ⟨qi, hqi⟩) s).Nodup := by
        rcases hqcases with heq | ⟨hv, hd, heq⟩
        · rw [heq]; exact hnd
        · rw [heq]
          refine List.Nodup.append hnd (List.Nodup.filter _ (hN1 _)) ?_
          intro x hx1 hx2
          exact (mem_filter_not_contains hx2).2 hx1
      have hqb2 : ∀ x ∈ expandQueue N minPts queue (queue.get ⟨qi, hqi⟩) s,
          x < n := by
        rcases hqcases with heq | ⟨hv, hd, heq⟩
        · rw [heq]; exact hqb
        · rw [heq]
          intro x hx
          rcases List.mem_append.mp hx with hx1 | hx2
          · exact hqb x hx1
          · exact hN2 _ _ (mem_filter_not_contains hx2).1
      have hpref : ∃ ext, expandQueue N minPts queue (queue.get ⟨qi, hqi⟩) s =
          queue ++ ext := by
        rcases hqcases with heq | ⟨hv, hd, heq⟩
        · exact ⟨[], by rw [heq, List.append_nil]⟩
        · exact ⟨_, heq⟩
      obtain ⟨ext, hext⟩ := hpref
      have hproc2 : ∀ t (h2 : t < (expandQueue N minPts queue
            (queue.get ⟨qi, hqi⟩) s).length), t < qi + 1 →
          (expandState cid (queue.get ⟨qi, hqi⟩) s).assign
            ((expandQueue N minPts queue (queue.get ⟨qi, hqi⟩) s).get ⟨t, h2⟩) ≠
            none := by
        intro t h2 ht
        have htq : t < queue.length := by omega
        have hget : (expandQueue N minPts queue (queue.get ⟨qi, hqi⟩) s).get
            ⟨t, h2⟩ = queue.get ⟨t, htq⟩ := by
          rw [List.get_of_eq hext ⟨t, h2⟩]
          simp only [List.get_eq_getElem]
          exact List.getElem_append_left htq
        rw [hget]
        by_cases htqi : t < qi
        · exact expandState_assign_ne_none (hproc t htq htqi)
        · have hteq : t = qi := by omega
          have hgeteq : queue.get ⟨t, htq⟩ = queue.get ⟨qi, hqi⟩ := by
            subst hteq
            rfl
          rw [hgeteq]
          exact expandState_assign_self cid _ s
      have hclos2 : ∀ j, (expandState cid (queue.get ⟨qi, hqi⟩) s).visited j =
            true → DbDense N minPts n j → ∀ b ∈ N j,
          (expandState cid (queue.get ⟨qi, hqi⟩) s).assign b ≠ none ∨
            b ∈ expandQueue N minPts queue (queue.get ⟨qi, hqi⟩) s := by
        intro j hvis hdense b hb
        have hlift : s.assign b ≠ none ∨ b ∈ queue →
            (expandState cid (queue.get ⟨qi, hqi⟩) s).assign b ≠ none ∨
              b ∈ expandQueue N minPts queue (queue.get ⟨qi, hqi⟩) s := by
          rintro (ha | hm)
          · exact Or.inl (expandState_assign_ne_none ha)
          · right
            rw [hext]
            exact List.mem_append_left ext hm
        by_cases hej : j = queue.get ⟨qi, hqi⟩
        · by_cases hsv : s.visited j = true
          · exact hlift (hclos j hsv hdense b hb)
          · have hsv2 : s.visited j = false := by
              cases h : s.visited j
              · rfl
              · exact absurd h hsv
            have hcond : (!s.visited (queue.get ⟨qi, hqi⟩) &&
                decide (minPts ≤ (N (queue.get ⟨qi, hqi⟩)).length)) = true := by
              rw [← hej]
              simp [hsv2, hdense.2]
            by_cases hbq : b ∈ queue
            · exact hlift (Or.inr hbq)
            · right
              rcases hqcases with heq | ⟨hv, hd, heq⟩
              · exfalso
                unfold expandQueue at heq
                rw [if_pos hcond] at heq
                have hlen := congrArg List.length heq
                rw [List.length_append] at hlen
                have hflen : ((N (queue.get ⟨qi, hqi⟩)).filter
                    (fun nb => !queue.contains nb)).length = 0 := by omega
                have hbf := not_mem_mem_filter
                  (show b ∈ N (queue.get ⟨qi, hqi⟩) from hej ▸ hb) hbq
                rw [List.length_eq_zero.mp hflen] at hbf
                cases hbf
              · rw [heq]
                exact List.mem_append_right _ (not_mem_mem_filter
                  (show b ∈ N (queue.get ⟨qi, hqi⟩) from hej ▸ hb) hbq)
        · have hsv : s.visited j = true := by
            have hv2 : (if j = queue.get ⟨qi, hqi⟩ then true
              else s.visited j) = true := hvis
            rwa [if_neg hej] at hv2
          exact hlift (hclos j hsv hdense b hb)
      exact ih _ _ _ hnd2 hqb2 (by omega) hproc2 hclos2
    · rw [dif_neg hqi]
      intro j hvis hdense b hb
      have hql : queue.length ≤ qi := by omega
      rcases hclos j hvis hdense b hb with hass | hmem
      · exact hass
      · exact mem_queue_assigned hql hproc b hmem

/-- The closure invariant of the outer scan: every visited dense point has
all of its neighbors assigned. -/
def ClosInv (N : ℕ → List ℕ) (minPts n : ℕ) (s : DBState) : Prop :=
  ∀ j, s.visited j = true → DbDense N minPts n j → ∀ b ∈ N j,
    s.assign b ≠ none

theorem outer_visited_mono (N : ℕ → List ℕ) (minPts n : ℕ) :
    ∀ (l : List ℕ) (cid : ℕ) (s : DBState) (j : ℕ),
    s.visited j = true →
    (dbscanOuter N minPts n l cid s).visited j = true := by
  intro l
  induction l with
  | nil => intro cid s j h; exact h
  | cons i rest ih =>
    intro cid s j h
    rw [dbscanOuter]
    by_cases hv : s.visited i = true
    · rw [if_pos hv]
      exact ih _ _ _ h
    · rw [if_neg hv]
      by_cases hd : (N i).length < minPts
      · rw [if_pos hd]
        apply ih
        show (if j = i then true else s.visited j) = true
        by_cases hji : j = i
        · rw [if_pos hji]
        · rw [if_neg hji]
          exact h
      · rw [if_neg hd]
        apply ih
        apply expand_visited_mono
        show (if j = i then true else s.visited j) = true
        by_cases hji : j = i
        · rw [if_pos hji]
        · rw [if_neg hji]
          exact h

theorem outer_sound (N : ℕ → List ℕ) (minPts n : ℕ)
    (hN2 : ∀ i j, j ∈ N i → j < n) :
    ∀ (l : List ℕ) (cid : ℕ) (s : DBState),
    (∀ x ∈ l, x < n) →
    (∀ j, s.assign j ≠ none → DbReach N minPts n j) →
    ∀ j, (dbscanOuter N minPts n l cid s).assign j ≠ none →
    DbReach N minPts n j := by
  intro l
  induction l with
  | nil => intro cid s hb hs j h; exact hs j h
  | cons i rest ih =>
    intro cid s hb hs j h
    rw [dbscanOuter] at h
    by_cases hv : s.visited i = true
    · rw [if_pos hv] at h
      exact ih _ _ (fun x hx => hb x (List.mem_cons_of_mem i hx)) hs j h
    · rw [if_neg hv] at h
      by_cases hd : (N i).length < minPts
      · rw [if_pos hd] at h
        exact ih cid (markVisited i s)
          (fun x hx => hb x (List.mem_cons_of_mem i hx))
          (fun jj hjj => hs jj hjj) j h
      · rw [if_neg hd] at h
        have hin : i < n := hb i (List.mem_cons_self i rest)
        have hidense : DbDense N minPts n i := ⟨hin, by omega⟩
        refine ih _ _ (fun x hx => hb x (List.mem_cons_of_mem i hx)) ?_ j h
        intro jj hjj
        refine expand_sound N minPts n cid hN2 (n + 1) (N i) 0 _ ?_ ?_ ?_ jj hjj
        · intro x hx
          exact ⟨i, hidense, Relation.ReflTransGen.single ⟨hidense, hx⟩⟩
        · intro x hx
          exact hN2 i x hx
        · intro k hk
          have hk2 : (if k = i then some cid else s.assign k) ≠ none := hk
          by_cases hki : k = i
          · subst hki
            exact ⟨k, hidense, Relation.ReflTransGen.refl⟩
          · rw [if_neg hki] at hk2
            exact hs k hk2

theorem outer_post (N : ℕ → List ℕ) (minPts n : ℕ)
    (hN1 : ∀ i, (N i).Nodup) (hN2 : ∀ i j, j ∈ N i → j < n) :
    ∀ (l : List ℕ) (cid : ℕ) (s : DBState),
    (∀ x ∈ l, x < n) →
    ClosInv N minPts n s →
    ClosInv N minPts n (dbscanOuter N minPts n l cid s) ∧
    ∀ x ∈ l, (dbscanOuter N minPts n l cid s).visited x = true := by
  intro l
  induction l with
  | nil =>
    intro cid s hb hc
    exact ⟨hc, by intro x hx; cases hx⟩
  | cons i rest ih =>
    intro cid s hb hc
    rw [dbscanOuter]
    by_cases hv : s.visited i = true
    · rw [if_pos hv]
      obtain ⟨h1, h2⟩ :=
        ih cid s (fun x hx => hb x (List.mem_cons_of_mem i hx)) hc
      refine ⟨h1, ?_⟩
      intro x hx
      rcases List.mem_cons.mp hx with hx1 | hx2
      · subst hx1
        exact outer_visited_mono N minPts n rest cid s x hv
      · exact h2 x hx2
    · rw [if_neg hv]
      by_cases hd : (N i).length < minPts
      · rw [if_pos hd]
        have hc2 : ClosInv N minPts n (markVisited i s) := by
          intro j hj hdense b hbn
          have hj2 : (if j = i then true else s.visited j) = true := hj
          by_cases hji : j = i
          · exfalso
            subst hji
            exact absurd hdense.2 (by omega)
          · rw [if_neg hji] at hj2
            exact hc j hj2 hdense b hbn
        obtain ⟨h1, h2⟩ :=
          ih cid _ (fun x hx => hb x (List.mem_cons_of_mem i hx)) hc2
        refine ⟨h1, ?_⟩
        intro x hx
        rcases List.mem_cons.mp hx with hx1 | hx2
        · subst hx1
          apply outer_visited_mono
          show (if x = x then true else s.visited x) = true
          rw [if_pos rfl]
        · exact h2 x hx2
      · rw [if_neg hd]
        have hclos2 : ∀ j, (seedCluster cid i (markVisited i s)).visited j =
              true → DbDense N minPts n j → ∀ b ∈ N j,
            (seedCluster cid i (markVisited i s)).assign b ≠ none ∨
              b ∈ N i := by
          intro j hj hdense b hbn
          have hj2 : (if j = i then true else s.visited j) = true := hj
          by_cases hji : j = i
          · subst hji
            exact Or.inr hbn
          · rw [if_neg hji] at hj2
            left
            have hb2 := hc j hj2 hdense b hbn
            show (if b = i then some cid else s.assign b) ≠ none
            by_cases hbi : b = i
            · rw [if_pos hbi]
              simp
            · rw [if_neg hbi]
              exact hb2
        have hc2 : ClosInv N minPts n (dbscanExpand N minPts cid (n + 1)
            (N i) 0 (seedCluster cid i (markVisited i s))) :=
          expand_post N minPts n cid hN1 hN2 (n + 1) (N i) 0 _
            (hN1 i) (fun x hx => hN2 i x hx) (by omega)
            (fun t h2 ht => absurd ht (by omega)) hclos2
        obtain ⟨h1, h2⟩ :=
          ih (cid + 1) _ (fun x hx => hb x (List.mem_cons_of_mem i hx)) hc2
        refine ⟨h1, ?_⟩
        intro x hx
        rcases List.mem_cons.mp hx with hx1 | hx2
        · subst hx1
          apply outer_visited_mono
          apply expand_visited_mono
          show (if x = x then true else s.visited x) = true
          rw [if_pos rfl]
        · exact h2 x hx2

theorem dbscan_core (N : ℕ → List ℕ) (minPts n : ℕ)
    (hN1 : ∀ i, (N i).Nodup) (hN2 : ∀ i j, j ∈ N i → j < n)
    (hNself : ∀ i, DbDense N minPts n i → i ∈ N i) (j : ℕ) :
    (dbscanOuter N minPts n (List.range n) 0
      { assign := fun _ => none, visited := fun _ => false }).assign j ≠
      none ↔ DbReach N minPts n j := by
  constructor
  · intro h
    refine outer_sound N minPts n hN2 (List.range n) 0 _ ?_ ?_ j h
    · intro x hx
      exact List.mem_range.mp hx
    · intro jj hjj
      exact absurd rfl hjj
  · intro hreach
    obtain ⟨h1, h2⟩ := outer_post N minPts n hN1 hN2 (List.range n) 0
      { assign := fun _ => none, visited := fun _ => false }
      (fun x hx => List.mem_range.mp hx)
      (fun k hk => absurd hk Bool.false_ne_true)
    obtain ⟨a, ha, hrtg⟩ := hreach
    induction hrtg with
    | refl =>
      exact h1 a (h2 a (List.mem_range.mpr ha.1)) ha a (hNself a ha)
    | tail hab hstep ih2 =>
      exact h1 _ (h2 _ (List.mem_range.mpr hstep.1.1)) hstep.1 _ hstep.2

theorem regionQuery_nodup (pts : List Pt) (epsSq : EF) (i : ℕ) :
    (regionQuery pts epsSq i).Nodup :=
  List.Nodup.filter _ (List.nodup_range _)

theorem regionQuery_bounded (pts : List Pt) (epsSq : EF) (i j : ℕ)
    (h : j ∈ regionQuery pts epsSq i) : j < pts.length := by
  unfold regionQuery at h
  exact List.mem_range.mp (List.mem_of_mem_filter h)

theorem sqDist_self (p : Pt) : sqDist p p = 0 := by
  unfold sqDist
  ring

theorem regionQuery_self (pts : List Pt) (q : ℚ) (i : ℕ)
    (hi : i < pts.length) : i ∈ regionQuery pts (.fin (q * q)) i := by
  unfold regionQuery
  rw [List.mem_filter]
  refine ⟨List.mem_range.mpr hi, ?_⟩
  show EF.le (.fin (sqDist (pts.getD i (0, 0)) (pts.getD i (0, 0))))
    (.fin (q * q)) = true
  rw [sqDist_self]
  show decide ((0 : ℚ) ≤ q * q) = true
  exact decide_eq_true (mul_self_nonneg q)

theorem EF_mul_fin (a b : ℚ) : (EF.fin a).mul (.fin b) = .fin (a * b) := rfl

/-- A dense point belongs to its own neighborhood: a nonempty neighborhood
forces the squared threshold to be at least one nonnegative squared distance,
hence at least the zero self-distance. -/
theorem regionQuery_self_of_dense (pts : List Pt) (epsSq : EF)
    (minPts i : ℕ) (hmp : 1 ≤ minPts) (hi : i < pts.length)
    (hd : minPts ≤ (regionQuery pts epsSq i).length) :
    i ∈ regionQuery pts epsSq i := by
  have hne : regionQuery pts epsSq i ≠ [] := by
    intro h
    rw [h] at hd
    simp at hd
    omega
  obtain ⟨j, hj⟩ := List.exists_mem_of_ne_nil _ hne
  unfold regionQuery at hj ⊢
  rw [List.mem_filter] at hj ⊢
  refine ⟨List.mem_range.mpr hi, ?_⟩
  rw [sqDist_self]
  cases epsSq with
  | fin r =>
    have hd2 : sqDist (pts.getD i (0, 0)) (pts.getD j (0, 0)) ≤ r :=
      of_decide_eq_true hj.2
    show decide ((0 : ℚ) ≤ r) = true
    exact decide_eq_true (le_trans (sqDist_nonneg _ _) hd2)
  | pinf => rfl
  | ninf => exact Bool.noConfusion hj.2
  | nan => exact Bool.noConfusion hj.2

theorem mem_uniqueInOrder {x : ℕ} : ∀ {l : List ℕ},
    x ∈ uniqueInOrder l ↔ x ∈ l := by
  intro l
  induction l with
  | nil => rfl
  | cons a t ih =>
    rw [uniqueInOrder]
    constructor
    · intro h
      rcases List.mem_cons.mp h with h1 | h2
      · exact h1 ▸ List.mem_cons_self a t
      · exact List.mem_cons_of_mem a (ih.mp (List.mem_of_mem_filter h2))
    · intro h
      rcases List.mem_cons.mp h with h1 | h2
      · exact h1 ▸ List.mem_cons_self a _
      · by_cases hxa : x = a
        · exact hxa ▸ List.mem_cons_self a _
        · refine List.mem_cons_of_mem a ?_
          rw [List.mem_filter]
          exact ⟨ih.mpr h2, by simp [hxa]⟩

theorem uniqueInOrder_ne_nil {l : List ℕ} (h : l ≠ []) :
    uniqueInOrder l ≠ [] := by
  cases l with
  | nil => exact absurd rfl h
  | cons a t =>
    rw [uniqueInOrder]
    exact List.cons_ne_nil a _

theorem mem_insertNat {x a : ℕ} : ∀ {l : List ℕ},
    x ∈ insertNat a l ↔ x = a ∨ x ∈ l := by
  intro l
  induction l with
  | nil =>
    rw [insertNat]
    simp
  | cons b t ih =>
    rw [insertNat]
    by_cases hab : a ≤ b
    · rw [if_pos hab]
      simp
    · rw [if_neg hab]
      rw [List.mem_cons, List.mem_cons, ih]
      tauto

theorem mem_sortNat {x : ℕ} : ∀ {l : List ℕ}, x ∈ sortNat l ↔ x ∈ l := by
  intro l
  induction l with
  | nil => rfl
  | cons a t ih =>
    rw [sortNat, mem_insertNat, List.mem_cons, ih]

theorem mem_zip_map_range (l : List Pt) (F : ℕ → Option ℕ) (i : ℕ)
    (hi : i < l.length) :
    (l.getD i (0, 0), F i) ∈ l.zip ((List.range l.length).map F) := by
  refine List.mem_iff_getElem.mpr ⟨i, ?_, ?_⟩
  · simp [hi]
  · simp [List.getElem_zip, List.getD_eq_getElem, hi]

/-- **C7**: in `st_cluster_dbscan`, a point is left unassigned (noise,
hence excluded from the clusters of the result) if and only if it never
becomes reachable from any dense point — a point whose eps-neighborhood
(squared distance at most `eps * eps` under the IEEE comparison) has at
least `min_points` members — through a chain of dense points; in particular
a non-dense point in the neighborhood of a reachable dense point is absorbed
as a border point (second conjunct), and every assigned point appears in
some cluster of a successful result (third conjunct). -/
theorem dbscan_noise_iff_unreachable (pts : List Pt) (eps : EF)
    (minPts i : ℕ) (hmp : 1 ≤ minPts) (hi : i < pts.length) :
    (dbscanAssignFun pts eps minPts i = none ↔
      ¬ DbReach (regionQuery pts (eps.mul eps)) minPts pts.length i) ∧
    (∀ c, DbReach (regionQuery pts (eps.mul eps)) minPts pts.length c →
      DbDense (regionQuery pts (eps.mul eps)) minPts pts.length c →
      i ∈ regionQuery pts (eps.mul eps) c →
      dbscanAssignFun pts eps minPts i ≠ none) ∧
    (dbscanAssignFun pts eps minPts i ≠ none →
      ∀ res, st_cluster_dbscan pts eps minPts = .ok res →
      ∃ cl ∈ res, pts.getD i (0, 0) ∈ cl) := by
  have hcore : ∀ j, dbscanAssignFun pts eps minPts j ≠ none ↔
      DbReach (regionQuery pts (eps.mul eps)) minPts pts.length j := by
    intro j
    unfold dbscanAssignFun
    exact dbscan_core _ minPts pts.length
      (regionQuery_nodup pts _) (regionQuery_bounded pts _)
      (fun a ha => regionQuery_self_of_dense pts (eps.mul eps) minPts a
        hmp ha.1 ha.2) j
  refine ⟨?_, ?_, ?_⟩
  · rw [← hcore i]
    exact not_not.symm
  · intro c hreach hdense hiN
    rw [hcore i]
    obtain ⟨a, ha, hrtg⟩ := hreach
    exact ⟨a, ha, hrtg.tail ⟨hdense, hiN⟩⟩
  · intro hne res hres
    unfold st_cluster_dbscan at hres
    split at hres
    · exact Except.noConfusion hres
    · split at hres
      · exact Except.noConfusion hres
      · split at hres
        · exact Except.noConfusion hres
        · unfold buildClusterResult at hres
          dsimp only [] at hres
          split at hres
          · exact Except.noConfusion hres
          · injection hres with hres2
            subst hres2
            cases hFi : dbscanAssignFun pts eps minPts i with
            | none => exact absurd hFi hne
            | some k =>
              have hsk : some k ∈ dbscanAssignments pts eps minPts := by
                have hmem := List.mem_map_of_mem
                  (dbscanAssignFun pts eps minPts)
                  (List.mem_range.mpr hi)
                rw [hFi] at hmem
                exact hmem
              have hk1 : k ∈ (dbscanAssignments pts
                  eps minPts).filterMap id :=
                List.mem_filterMap.mpr ⟨some k, hsk, rfl⟩
              have hk2 := mem_uniqueInOrder.mpr hk1
              have hk3 := mem_sortNat.mpr hk2
              refine ⟨_, List.mem_map_of_mem _ hk3, ?_⟩
              refine List.mem_filterMap.mpr
                ⟨(pts.getD i (0, 0), some k), ?_, ?_⟩
              · have hz := mem_zip_map_range pts
                  (dbscanAssignFun pts eps minPts) i hi
                rw [hFi] at hz
                exact hz
              · show (if (some k : Option ℕ) = some k
                  then some (pts.getD i (0, 0)) else none) =
                  some (pts.getD i (0, 0))
                rw [if_pos rfl]

theorem dbscan_noise_iff_unreachable_witness :
    1 ≤ 1 ∧ 0 < ([((0 : ℚ), (0 : ℚ))] : List Pt).length ∧
    ((dbscanAssignFun [((0 : ℚ), (0 : ℚ))] (.fin 0) 1 0 = none ↔
      ¬ DbReach (regionQuery [((0 : ℚ), (0 : ℚ))]
          ((EF.fin 0).mul (.fin 0))) 1
        ([((0 : ℚ), (0 : ℚ))] : List Pt).length 0) ∧
    (∀ c, DbReach (regionQuery [((0 : ℚ), (0 : ℚ))]
          ((EF.fin 0).mul (.fin 0))) 1
        ([((0 : ℚ), (0 : ℚ))] : List Pt).length c →
      DbDense (regionQuery [((0 : ℚ), (0 : ℚ))]
          ((EF.fin 0).mul (.fin 0))) 1
        ([((0 : ℚ), (0 : ℚ))] : List Pt).length c →
      (0 : ℕ) ∈ regionQuery [((0 : ℚ), (0 : ℚ))]
          ((EF.fin 0).mul (.fin 0)) c →
      dbscanAssignFun [((0 : ℚ), (0 : ℚ))] (.fin 0) 1 0 ≠ none) ∧
    (dbscanAssignFun [((0 : ℚ), (0 : ℚ))] (.fin 0) 1 0 ≠ none →
      ∀ res, st_cluster_dbscan [((0 : ℚ), (0 : ℚ))] (.fin 0) 1 = .ok res →
      ∃ cl ∈ res, ([((0 : ℚ), (0 : ℚ))] : List Pt).getD 0 (0, 0) ∈ cl)) :=
  ⟨le_refl 1, by decide,
    dbscan_noise_iff_unreachable [((0 : ℚ), (0 : ℚ))] (.fin 0) 1 0
      (le_refl 1) (by decide)⟩

/-- **C10** counterexample: with `eps = NaN` (which passes the `eps < 0.0`
validation) the squared-distance comparison `0 <= NaN * NaN` is false, so the
eps-neighborhood of a point does NOT include the point itself, every point is
left as noise even with `min_points = 1`, and the call fails with the
no-clusters-formed error on a non-empty input. -/
theorem dbscan_nan_eps_self_counterexample :
    regionQuery [((0 : ℚ), (0 : ℚ))] (EF.mul .nan .nan) 0 = [] ∧
    st_cluster_dbscan [((0 : ℚ), (0 : ℚ))] .nan 1 =
      .error .invalidArgument := by
  constructor
  · with_unfolding_all decide
  · with_unfolding_all decide

/-- **C10** (amended): for a finite non-negative `eps`, the eps-neighborhood
of every input point includes the point itself (its squared self-distance `0`
is at most `eps * eps`), so with `min_points = 1` every point of a non-empty
input is dense, every point is assigned to a cluster (no noise), and
`st_cluster_dbscan` succeeds. -/
theorem dbscan_minpts_one_all_assigned (pts : List Pt) (q : ℚ)
    (hq : 0 ≤ q) (hne : pts ≠ []) :
    (∀ i, i < pts.length → i ∈ regionQuery pts (.fin (q * q)) i) ∧
    (∀ i, i < pts.length → dbscanAssignFun pts (.fin q) 1 i ≠ none) ∧
    (∃ res, st_cluster_dbscan pts (.fin q) 1 = .ok res) := by
  have hself := regionQuery_self pts q
  have hassigned : ∀ i, i < pts.length →
      dbscanAssignFun pts (.fin q) 1 i ≠ none := by
    intro i hi
    have hmul : (EF.fin q).mul (.fin q) = .fin (q * q) := rfl
    unfold dbscanAssignFun
    rw [hmul]
    refine (dbscan_core _ 1 pts.length (regionQuery_nodup pts _)
      (regionQuery_bounded pts _)
      (fun a ha => regionQuery_self pts q a ha.1) i).mpr ?_
    refine ⟨i, ⟨hi, ?_⟩, Relation.ReflTransGen.refl⟩
    exact List.length_pos.mpr (List.ne_nil_of_mem (hself i hi))
  refine ⟨hself, hassigned, ?_⟩
  have hlen : 0 < pts.length := List.length_pos.mpr hne
  have h0 := hassigned 0 hlen
  have h1 : ¬(pts.isEmpty = true) := by
    simp only [List.isEmpty_iff]
    exact hne
  have h2 : ¬((EF.fin q).lt (EF.fin 0) = true) := by
    show ¬(decide (q < 0) = true)
    rw [decide_eq_true_eq]
    exact not_lt.mpr hq
  have h3 : ¬((1 : ℕ) = 0) := one_ne_zero
  have hkeys : ¬((uniqueInOrder ((dbscanAssignments pts
      (.fin q) 1).filterMap id)).isEmpty = true) := by
    simp only [List.isEmpty_iff]
    cases hF0 : dbscanAssignFun pts (.fin q) 1 0 with
    | none => exact absurd hF0 h0
    | some k =>
      have hsk : some k ∈ dbscanAssignments pts (.fin q) 1 := by
        have hmem := List.mem_map_of_mem (dbscanAssignFun pts (.fin q) 1)
          (List.mem_range.mpr hlen)
        rw [hF0] at hmem
        exact hmem
      exact uniqueInOrder_ne_nil (List.ne_nil_of_mem
        (List.mem_filterMap.mpr ⟨some k, hsk, rfl⟩))
  have hok : st_cluster_dbscan pts (.fin q) 1 =
      .ok ((sortNat (uniqueInOrder ((dbscanAssignments pts
          (.fin q) 1).filterMap id))).map (fun k =>
        (pts.zip (dbscanAssignments pts (.fin q) 1)).filterMap
          (fun pa => if pa.2 = some k then some pa.1 else none))) := by
    unfold st_cluster_dbscan
    rw [if_neg h1, if_neg h2, if_neg h3]
    unfold buildClusterResult
    dsimp only []
    rw [if_neg hkeys]
  exact ⟨_, hok⟩

theorem dbscan_minpts_one_all_assigned_witness :
    (0 : ℚ) ≤ 0 ∧ ([((2 : ℚ), (3 : ℚ))] : List Pt) ≠ [] ∧
    ((∀ i, i < ([((2 : ℚ), (3 : ℚ))] : List Pt).length →
        i ∈ regionQuery [((2 : ℚ), (3 : ℚ))] (.fin (0 * 0)) i) ∧
     (∀ i, i < ([((2 : ℚ), (3 : ℚ))] : List Pt).length →
        dbscanAssignFun [((2 : ℚ), (3 : ℚ))] (.fin 0) 1 i ≠ none) ∧
     (∃ res, st_cluster_dbscan [((2 : ℚ), (3 : ℚ))] (.fin 0) 1 = .ok res)) :=
  ⟨le_refl 0, by decide,
    dbscan_minpts_one_all_assigned [((2 : ℚ), (3 : ℚ))] 0 (le_refl 0)
      (by decide)⟩
